import Mathlib

/-! Blob metadata migration (`blossomMigration.go`)

A shallow embedding of `migrateBlossomMetadata`: the routine that moves every blob
descriptor of the relay owner from the outbox index into the Blossom index.

The two blob indexes are library values (`blossom.EventStoreBlobIndexWrapper`); the routine
only calls `List` and `Delete` on the outbox one and `Keep` on the Blossom one.  They are
taken as parameters: an index is a state type together with the three operations, each
returning its Go result and the next state.  The routine's observable behaviour is the
sequence of events it produces (store calls with their results, channel receives, log
records), the final states of the two indexes and the final `migrated` map.
-/

namespace Haven

/-! ## Data model -/

/-- A Go `error` value that is not `nil`, identified by its message. -/
abbrev GoError := String

/-- Modelled from the spec: the library type `blossom.BlobDescriptor`, whose declaration is
not part of the sources.  `SHA256`, `Type` and `Size` are the fields the routine reads
(`Type` is written `Type_`, the bare word being reserved); `URL` and `Uploaded` stand for
the fields it never touches. -/
structure BlobDescriptor where
  URL : String
  SHA256 : String
  Size : Int
  Type_ : String
  Uploaded : Int
  deriving DecidableEq, Repr

/-- The `log/slog` levels. -/
inductive Level where
  | Debug
  | Info
  | Warn
  | Error
  deriving DecidableEq, Repr

/-- A value attached to a log record. -/
inductive LogValue where
  | str (s : String)
  | int (n : Int)
  | err (e : GoError)
  deriving DecidableEq, Repr

/-- One `slog` record: level, message and the key/value pairs in call order. -/
structure LogRecord where
  level : Level
  msg : String
  attrs : List (String × LogValue)
  deriving DecidableEq, Repr

/-- What the routine does that is visible from outside, in program order.  A store call
carries the arguments it was given and the error it returned (`none` is Go's `nil`). -/
inductive Event where
  | list (pubkey : String) (err : Option GoError)
  | recv (blob : BlobDescriptor)
  | keep (blob : BlobDescriptor) (pubkey : String) (err : Option GoError)
  | delete (sha256 : String) (pubkey : String) (err : Option GoError)
  | log (r : LogRecord)
  deriving DecidableEq, Repr

/-- The blob index capability as the routine uses it, over a state type `σ`.
`List` yields either an error or the values its channel delivers before it is closed. -/
structure BlobIndex (σ : Type) where
  Keep : σ → BlobDescriptor → String → Option GoError × σ
  Delete : σ → String → String → Option GoError × σ
  List : σ → String → Except GoError (List BlobDescriptor) × σ

/-- A Go `map[string]blossom.BlobDescriptor`: at most one entry per key. -/
abbrev GoMap := List (String × BlobDescriptor)

/-- The map assignment `m[k] = v`: overwrite the entry of `k`, or add one. -/
def GoMap.assign : GoMap → String → BlobDescriptor → GoMap
  | [], k, v => [(k, v)]
  | (k0, v0) :: t, k, v => if k0 = k then (k, v) :: t else (k0, v0) :: GoMap.assign t k v

/-- Go's `len(m)`. -/
def GoMap.len (m : GoMap) : Nat := m.length

/-- How a run ended: at the `return` of line 21, at the `return` of line 30, or by falling
off the end of the function after line 59. -/
inductive Exit where
  | listFailed
  | nothingToMigrate
  | completed
  deriving DecidableEq, Repr

/-- Everything a run leaves behind. `migrated` is the map of line 34 as it stands when the
function returns; a run that returns before line 34 has recorded nothing. -/
structure Run (σ τ : Type) where
  trace : List Event
  outbox : σ
  blossom : τ
  migrated : GoMap
  exit : Exit

/-! ## The routine -/

/-- Lines 41-43: an empty media type becomes `application/octet-stream`. -/
def normalizeType (blob : BlobDescriptor) : BlobDescriptor :=
  if blob.Type_ = "" then { blob with Type_ := "application/octet-stream" } else blob

/-- Lines 23-26: `for blob := range blobsChan { blobs = append(blobs, blob) }`.
The first argument is what the channel still has to deliver, the second is `blobs`. -/
def rangeChan : List BlobDescriptor → List BlobDescriptor → List BlobDescriptor × List Event
  | [], blobs => (blobs, [])
  | blob :: ch, blobs =>
    let r := rangeChan ch (blobs ++ [blob])
    (r.1, Event.recv blob :: r.2)

/-- The state the loop of lines 38-57 carries from one iteration to the next. -/
structure LoopState (σ τ : Type) where
  outbox : σ
  blossom : τ
  migrated : GoMap

/-- Lines 39-56: one iteration of the loop for `blob`. -/
def loopBody {σ τ : Type} (dst : BlobIndex τ) (src : BlobIndex σ) (ownerPubkey : String)
    (st : LoopState σ τ) (blob : BlobDescriptor) : List Event × LoopState σ τ :=
  let moving := Event.log ⟨Level.Debug, "Moving BlobDescriptor",
    [("sha256", LogValue.str blob.SHA256), ("type", LogValue.str blob.Type_),
     ("size", LogValue.int blob.Size)]⟩
  let blob := normalizeType blob
  let k := dst.Keep st.blossom blob ownerPubkey
  match k.1 with
  | some err =>
    ([moving, Event.keep blob ownerPubkey (some err),
      Event.log ⟨Level.Error, "🚫 Failed to store blob in Blossom DB",
        [("sha256", LogValue.str blob.SHA256), ("error", LogValue.err err)]⟩],
     { st with blossom := k.2 })
  | none =>
    let d := src.Delete st.outbox blob.SHA256 ownerPubkey
    let failed := match d.1 with
      | some err => [Event.log ⟨Level.Error, "🚫 Failed to delete blob from outbox DB",
          [("sha256", LogValue.str blob.SHA256), ("error", LogValue.err err)]⟩]
      | none => []
    ([moving, Event.keep blob ownerPubkey none, Event.delete blob.SHA256 ownerPubkey d.1]
       ++ failed,
     { outbox := d.2, blossom := k.2, migrated := st.migrated.assign blob.SHA256 blob })

/-- Lines 38-57: `for _, blob := range blobs`. -/
def migrateLoop {σ τ : Type} (dst : BlobIndex τ) (src : BlobIndex σ) (ownerPubkey : String) :
    List BlobDescriptor → LoopState σ τ → List Event × LoopState σ τ
  | [], st => ([], st)
  | blob :: rest, st =>
    let b := loopBody dst src ownerPubkey st blob
    let r := migrateLoop dst src ownerPubkey rest b.2
    (b.1 ++ r.1, r.2)

/-- The routine `migrateBlossomMetadata`.  `dst` is `blossomInstance.Store`, `src` is
`outboxDBWrapper`, `ownerPubkey` is `nPubToPubkey(config.OwnerNpub)`; `outbox` and `blossom`
are the states of the two indexes when the routine is entered. -/
def migrateBlossomMetadata {σ τ : Type} (dst : BlobIndex τ) (src : BlobIndex σ)
    (ownerPubkey : String) (outbox : σ) (blossom : τ) : Run σ τ :=
  let l := src.List outbox ownerPubkey
  match l.1 with
  | Except.error err =>
    { trace := [Event.list ownerPubkey (some err),
        Event.log ⟨Level.Error, "🚫 Failed to list blobs", [("error", LogValue.err err)]⟩],
      outbox := l.2, blossom := blossom, migrated := [], exit := Exit.listFailed }
  | Except.ok blobsChan =>
    let rc := rangeChan blobsChan []
    let blobs := rc.1
    if blobs.length = 0 then
      { trace := Event.list ownerPubkey none :: rc.2 ++
          [Event.log ⟨Level.Debug, "No blobs found to migrate",
            [("ownerPubkey", LogValue.str ownerPubkey)]⟩],
        outbox := l.2, blossom := blossom, migrated := [], exit := Exit.nothingToMigrate }
    else
      let start := Event.log ⟨Level.Info,
        "BlobDescriptors will be migrated from Outbox to Blossom's DB",
        [("count", LogValue.int blobs.length)]⟩
      let r := migrateLoop dst src ownerPubkey blobs
        { outbox := l.2, blossom := blossom, migrated := [] }
      { trace := Event.list ownerPubkey none :: rc.2 ++ [start] ++ r.1 ++
          [Event.log ⟨Level.Info, "✅ Blob migration completed",
            [("migrated", LogValue.int r.2.migrated.len)]⟩],
        outbox := r.2.outbox, blossom := r.2.blossom, migrated := r.2.migrated,
        exit := Exit.completed }

/-! ## Reading a trace -/

/-- The digests of the descriptors whose `Keep` returned `nil`, in call order. -/
def keptDigests : List Event → List String
  | [] => []
  | Event.keep blob _ none :: t => blob.SHA256 :: keptDigests t
  | _ :: t => keptDigests t

/-- The descriptors handed to `Keep`, in call order. -/
def keepArgs : List Event → List BlobDescriptor
  | [] => []
  | Event.keep blob _ _ :: t => blob :: keepArgs t
  | _ :: t => keepArgs t

/-- The number of `Keep` calls that returned an error. -/
def failedKeeps : List Event → Nat
  | [] => 0
  | Event.keep _ _ (some _) :: t => failedKeeps t + 1
  | _ :: t => failedKeeps t

/-- The `Keep` and `Delete` calls of a trace, in call order. -/
def keepDeleteCalls : List Event → List Event
  | [] => []
  | Event.keep blob o e :: t => Event.keep blob o e :: keepDeleteCalls t
  | Event.delete sha o e :: t => Event.delete sha o e :: keepDeleteCalls t
  | _ :: t => keepDeleteCalls t

/-- The log records of a trace, in order. -/
def logRecords : List Event → List LogRecord
  | [] => []
  | Event.log r :: t => r :: logRecords t
  | _ :: t => logRecords t

/-- The call sequence the specification prescribes for an enumeration under `owner`: for
each descriptor in order one `Keep` of the normalized descriptor and, exactly when that
`Keep` returned `nil`, one `Delete` of the same digest right after it. -/
def followsProtocol (owner : String) : List BlobDescriptor → List Event → Bool
  | [], [] => true
  | b :: bs, Event.keep k o (some _) :: t =>
    decide (k = normalizeType b) && decide (o = owner) && followsProtocol owner bs t
  | b :: bs, Event.keep k o none :: Event.delete sha o2 _ :: t =>
    decide (k = normalizeType b) && decide (o = owner) && decide (sha = b.SHA256) &&
      decide (o2 = owner) && followsProtocol owner bs t
  | _, _ => false

/-- A log record carries a descriptor when it has the descriptor's digest, media type and
size among its attributes. -/
def LogRecord.carries (r : LogRecord) (blob : BlobDescriptor) : Bool :=
  decide (("sha256", LogValue.str blob.SHA256) ∈ r.attrs) &&
  decide (("type", LogValue.str blob.Type_) ∈ r.attrs) &&
  decide (("size", LogValue.int blob.Size) ∈ r.attrs)

/-- The position of the first `Keep` call in a trace. -/
def firstKeepIdx : List Event → Option Nat
  | [] => none
  | Event.keep _ _ _ :: _ => some 0
  | _ :: t => (firstKeepIdx t).map (· + 1)

/-- The position of the last channel receive in a trace. -/
def lastRecvIdx : List Event → Option Nat
  | [] => none
  | e :: t =>
    match lastRecvIdx t with
    | some i => some (i + 1)
    | none => match e with
      | Event.recv _ => some 0
      | _ => none

/-! ## An in-memory blob index -/

/-- Modelled from the spec: a blob index as §4.2 describes it, the library implementation
(`blossom.EventStoreBlobIndexWrapper` over an event store) not being part of the sources.
`entries` holds the stored descriptors with their owner; `faults` is the schedule of
outcomes of the coming calls, `true` meaning the call fails and leaves the entries as they
are (an exhausted schedule means success). -/
structure MemIndex where
  entries : List (String × BlobDescriptor)
  faults : List Bool
  deriving DecidableEq, Repr

/-- Whether the index holds an entry for digest `sha` under `owner`. -/
def MemIndex.has (s : MemIndex) (owner sha : String) : Bool :=
  s.entries.any (fun e => decide (e.1 = owner) && decide (e.2.SHA256 = sha))

/-- Modelled from the spec: `keep(descriptor, owner)` of §4.2, a no-op on a digest the
owner already has. -/
def MemIndex.Keep (s : MemIndex) (blob : BlobDescriptor) (owner : String) :
    Option GoError × MemIndex :=
  match s.faults with
  | true :: fs => (some "StoreWriteError", { s with faults := fs })
  | _ =>
    (none, { entries := if s.has owner blob.SHA256 then s.entries
                        else s.entries ++ [(owner, blob)],
             faults := s.faults.tail })

/-- Modelled from the spec: `delete(digest, owner)` of §4.2, a set difference. -/
def MemIndex.Delete (s : MemIndex) (sha owner : String) : Option GoError × MemIndex :=
  match s.faults with
  | true :: fs => (some "StoreDeleteError", { s with faults := fs })
  | _ =>
    (none, { entries := s.entries.filter
               (fun e => !(decide (e.1 = owner) && decide (e.2.SHA256 = sha))),
             faults := s.faults.tail })

/-- Modelled from the spec: `enumerate(owner)` of §4.2, every descriptor of the owner. -/
def MemIndex.List (s : MemIndex) (owner : String) :
    Except GoError (List BlobDescriptor) × MemIndex :=
  match s.faults with
  | true :: fs => (Except.error "EnumerationError", { s with faults := fs })
  | _ =>
    (Except.ok ((s.entries.filter (fun e => decide (e.1 = owner))).map Prod.snd),
     { s with faults := s.faults.tail })

/-- The in-memory index as a `BlobIndex`. -/
def memIndex : BlobIndex MemIndex :=
  { Keep := MemIndex.Keep, Delete := MemIndex.Delete, List := MemIndex.List }

/-! ## Store contracts -/

/-- What §4.2 promises of the source index, in terms of a presence predicate
`present state owner digest`: enumeration yields exactly the owner's digests and adds none,
a deletion that succeeds removes its digest, and a deletion, whatever its outcome, neither
adds a digest nor removes another one. -/
structure SourceContract {σ : Type} (src : BlobIndex σ)
    (present : σ → String → String → Prop) : Prop where
  list_sound : ∀ s o bs, (src.List s o).1 = Except.ok bs →
    ∀ b ∈ bs, present (src.List s o).2 o b.SHA256
  list_complete : ∀ s o bs, (src.List s o).1 = Except.ok bs →
    ∀ x, present (src.List s o).2 o x → ∃ b ∈ bs, b.SHA256 = x
  list_adds_none : ∀ s o x, present (src.List s o).2 o x → present s o x
  delete_removes : ∀ s sha o, (src.Delete s sha o).1 = none →
    ¬ present (src.Delete s sha o).2 o sha
  delete_adds_none : ∀ s sha o x, present (src.Delete s sha o).2 o x → present s o x
  delete_frame : ∀ s sha o x, x ≠ sha → present s o x → present (src.Delete s sha o).2 o x

/-- What §4.2 promises of the destination index: a `Keep` that succeeds leaves its digest
present, and a `Keep`, whatever its outcome, removes nothing. -/
structure DestContract {τ : Type} (dst : BlobIndex τ)
    (present : τ → String → String → Prop) : Prop where
  keep_present : ∀ s b o, (dst.Keep s b o).1 = none → present (dst.Keep s b o).2 o b.SHA256
  keep_frame : ∀ s b o x, present s o x → present (dst.Keep s b o).2 o x

/-! ## Scenarios -/

/-- A descriptor with the given digest, media type and size. -/
def mkBlob (sha ty : String) (size : Int) : BlobDescriptor :=
  { URL := "", SHA256 := sha, Size := size, Type_ := ty, Uploaded := 0 }

/-- An outbox index holding three descriptors of owner `"pk"`. -/
def outbox3 : MemIndex :=
  { entries := [("pk", mkBlob "aa" "image/png" 10), ("pk", mkBlob "bb" "" 1024),
                ("pk", mkBlob "cc" "text/plain" 7)],
    faults := [] }

/-- An empty destination index whose second call fails. -/
def blossomFailSecond : MemIndex := { entries := [], faults := [false, true] }

/-- The partial-failure scenario of §8: three descriptors, `Keep` failing on the second. -/
def partialFailureRun : Run MemIndex MemIndex :=
  migrateBlossomMetadata memIndex memIndex "pk" outbox3 blossomFailSecond

/-! ## Log records and trace predicates -/

/-- The record of line 39. -/
def movingRecord (blob : BlobDescriptor) : LogRecord :=
  ⟨Level.Debug, "Moving BlobDescriptor",
    [("sha256", LogValue.str blob.SHA256), ("type", LogValue.str blob.Type_),
     ("size", LogValue.int blob.Size)]⟩

/-- The record of line 47. -/
def keepFailedRecord (sha : String) (err : GoError) : LogRecord :=
  ⟨Level.Error, "🚫 Failed to store blob in Blossom DB",
    [("sha256", LogValue.str sha), ("error", LogValue.err err)]⟩

/-- The record of line 53. -/
def deleteFailedRecord (sha : String) (err : GoError) : LogRecord :=
  ⟨Level.Error, "🚫 Failed to delete blob from outbox DB",
    [("sha256", LogValue.str sha), ("error", LogValue.err err)]⟩

/-- The record of line 36. -/
def startRecord (count : Nat) : LogRecord :=
  ⟨Level.Info, "BlobDescriptors will be migrated from Outbox to Blossom's DB",
    [("count", LogValue.int count)]⟩

/-- The record of line 59. -/
def completedRecord (count : Nat) : LogRecord :=
  ⟨Level.Info, "✅ Blob migration completed", [("migrated", LogValue.int count)]⟩

/-- Whether, in a trace, the first `Keep` is issued before the last receive from the
channel: the run starts writing while the enumeration is still being consumed. -/
def consumesLazily (t : List Event) : Bool :=
  match firstKeepIdx t, lastRecvIdx t with
  | some i, some j => decide (i < j)
  | _, _ => false

/-- The number of `Delete` calls that returned an error. -/
def failedDeletes : List Event → Nat
  | [] => 0
  | Event.delete _ _ (some _) :: t => failedDeletes t + 1
  | _ :: t => failedDeletes t

/-- An outbox index holding one descriptor of owner `"pk"`, whose second call fails. -/
def outboxDeleteFails : MemIndex :=
  { entries := [("pk", mkBlob "aa" "image/png" 10)], faults := [false, true] }

/-- A run in which the `Keep` succeeds and the `Delete` that follows fails. -/
def deleteFailureRun : Run MemIndex MemIndex :=
  migrateBlossomMetadata memIndex memIndex "pk" outboxDeleteFails { entries := [], faults := [] }

/-- A run in which every call succeeds. -/
def cleanRun : Run MemIndex MemIndex :=
  migrateBlossomMetadata memIndex memIndex "pk" outbox3 { entries := [], faults := [] }

/-! ## Basic facts about the routine -/

theorem rangeChan_eq (ch acc : List BlobDescriptor) :
    rangeChan ch acc = (acc ++ ch, ch.map Event.recv) := by
  induction ch generalizing acc with
  | nil => simp [rangeChan]
  | cons b ch ih => simp [rangeChan, ih]

theorem normalizeType_SHA256 (b : BlobDescriptor) : (normalizeType b).SHA256 = b.SHA256 := by
  unfold normalizeType; split <;> rfl

theorem normalizeType_Size (b : BlobDescriptor) : (normalizeType b).Size = b.Size := by
  unfold normalizeType; split <;> rfl

theorem loopBody_keep_failed {σ τ : Type} (dst : BlobIndex τ) (src : BlobIndex σ)
    (owner : String) (st : LoopState σ τ) (blob : BlobDescriptor) (err : GoError)
    (h : (dst.Keep st.blossom (normalizeType blob) owner).1 = some err) :
    loopBody dst src owner st blob =
      ([Event.log (movingRecord blob), Event.keep (normalizeType blob) owner (some err),
        Event.log (keepFailedRecord blob.SHA256 err)],
       { st with blossom := (dst.Keep st.blossom (normalizeType blob) owner).2 }) := by
  simp [loopBody, h, movingRecord, keepFailedRecord, normalizeType_SHA256]

theorem loopBody_delete_failed {σ τ : Type} (dst : BlobIndex τ) (src : BlobIndex σ)
    (owner : String) (st : LoopState σ τ) (blob : BlobDescriptor) (err : GoError)
    (h : (dst.Keep st.blossom (normalizeType blob) owner).1 = none)
    (hd : (src.Delete st.outbox blob.SHA256 owner).1 = some err) :
    loopBody dst src owner st blob =
      ([Event.log (movingRecord blob), Event.keep (normalizeType blob) owner none,
        Event.delete blob.SHA256 owner (some err),
        Event.log (deleteFailedRecord blob.SHA256 err)],
       { outbox := (src.Delete st.outbox blob.SHA256 owner).2,
         blossom := (dst.Keep st.blossom (normalizeType blob) owner).2,
         migrated := st.migrated.assign blob.SHA256 (normalizeType blob) }) := by
  simp [loopBody, h, hd, movingRecord, deleteFailedRecord, normalizeType_SHA256]

theorem loopBody_moved {σ τ : Type} (dst : BlobIndex τ) (src : BlobIndex σ)
    (owner : String) (st : LoopState σ τ) (blob : BlobDescriptor)
    (h : (dst.Keep st.blossom (normalizeType blob) owner).1 = none)
    (hd : (src.Delete st.outbox blob.SHA256 owner).1 = none) :
    loopBody dst src owner st blob =
      ([Event.log (movingRecord blob), Event.keep (normalizeType blob) owner none,
        Event.delete blob.SHA256 owner none],
       { outbox := (src.Delete st.outbox blob.SHA256 owner).2,
         blossom := (dst.Keep st.blossom (normalizeType blob) owner).2,
         migrated := st.migrated.assign blob.SHA256 (normalizeType blob) }) := by
  simp [loopBody, h, hd, movingRecord, normalizeType_SHA256]

/-- The three ways an iteration can go, with the events and the next state of each. -/
theorem loopBody_cases {σ τ : Type} (dst : BlobIndex τ) (src : BlobIndex σ)
    (owner : String) (st : LoopState σ τ) (blob : BlobDescriptor) :
    (∃ err, (dst.Keep st.blossom (normalizeType blob) owner).1 = some err ∧
      loopBody dst src owner st blob =
        ([Event.log (movingRecord blob), Event.keep (normalizeType blob) owner (some err),
          Event.log (keepFailedRecord blob.SHA256 err)],
         { st with blossom := (dst.Keep st.blossom (normalizeType blob) owner).2 })) ∨
    (∃ err, (dst.Keep st.blossom (normalizeType blob) owner).1 = none ∧
      (src.Delete st.outbox blob.SHA256 owner).1 = some err ∧
      loopBody dst src owner st blob =
        ([Event.log (movingRecord blob), Event.keep (normalizeType blob) owner none,
          Event.delete blob.SHA256 owner (some err),
          Event.log (deleteFailedRecord blob.SHA256 err)],
         { outbox := (src.Delete st.outbox blob.SHA256 owner).2,
           blossom := (dst.Keep st.blossom (normalizeType blob) owner).2,
           migrated := st.migrated.assign blob.SHA256 (normalizeType blob) })) ∨
    ((dst.Keep st.blossom (normalizeType blob) owner).1 = none ∧
      (src.Delete st.outbox blob.SHA256 owner).1 = none ∧
      loopBody dst src owner st blob =
        ([Event.log (movingRecord blob), Event.keep (normalizeType blob) owner none,
          Event.delete blob.SHA256 owner none],
         { outbox := (src.Delete st.outbox blob.SHA256 owner).2,
           blossom := (dst.Keep st.blossom (normalizeType blob) owner).2,
           migrated := st.migrated.assign blob.SHA256 (normalizeType blob) })) := by
  rcases h : (dst.Keep st.blossom (normalizeType blob) owner).1 with _ | err
  · rcases hd : (src.Delete st.outbox blob.SHA256 owner).1 with _ | err
    · exact Or.inr (Or.inr ⟨rfl, rfl, loopBody_moved dst src owner st blob h hd⟩)
    · exact Or.inr (Or.inl ⟨err, rfl, rfl, loopBody_delete_failed dst src owner st blob err h hd⟩)
  · exact Or.inl ⟨err, rfl, loopBody_keep_failed dst src owner st blob err h⟩

theorem migrateLoop_nil {σ τ : Type} (dst : BlobIndex τ) (src : BlobIndex σ)
    (owner : String) (st : LoopState σ τ) :
    migrateLoop dst src owner [] st = ([], st) := rfl

theorem migrateLoop_cons {σ τ : Type} (dst : BlobIndex τ) (src : BlobIndex σ)
    (owner : String) (st : LoopState σ τ) (blob : BlobDescriptor) (rest : List BlobDescriptor) :
    migrateLoop dst src owner (blob :: rest) st =
      ((loopBody dst src owner st blob).1 ++
        (migrateLoop dst src owner rest (loopBody dst src owner st blob).2).1,
       (migrateLoop dst src owner rest (loopBody dst src owner st blob).2).2) := rfl

/-- The run when `List` returns an error. -/
theorem run_list_error {σ τ : Type} (dst : BlobIndex τ) (src : BlobIndex σ)
    (owner : String) (s0 : σ) (d0 : τ) (err : GoError)
    (h : (src.List s0 owner).1 = Except.error err) :
    migrateBlossomMetadata dst src owner s0 d0 =
      { trace := [Event.list owner (some err),
          Event.log ⟨Level.Error, "🚫 Failed to list blobs", [("error", LogValue.err err)]⟩],
        outbox := (src.List s0 owner).2, blossom := d0, migrated := [],
        exit := Exit.listFailed } := by
  simp [migrateBlossomMetadata, h]

/-- The run when `List` succeeds and its channel delivers nothing. -/
theorem run_list_empty {σ τ : Type} (dst : BlobIndex τ) (src : BlobIndex σ)
    (owner : String) (s0 : σ) (d0 : τ)
    (h : (src.List s0 owner).1 = Except.ok []) :
    migrateBlossomMetadata dst src owner s0 d0 =
      { trace := [Event.list owner none,
          Event.log ⟨Level.Debug, "No blobs found to migrate",
            [("ownerPubkey", LogValue.str owner)]⟩],
        outbox := (src.List s0 owner).2, blossom := d0, migrated := [],
        exit := Exit.nothingToMigrate } := by
  simp [migrateBlossomMetadata, h, rangeChan]

/-- The run when `List` succeeds and its channel delivers at least one descriptor. -/
theorem run_list_ok {σ τ : Type} (dst : BlobIndex τ) (src : BlobIndex σ)
    (owner : String) (s0 : σ) (d0 : τ) (blobs : List BlobDescriptor)
    (h : (src.List s0 owner).1 = Except.ok blobs) (hne : blobs ≠ []) :
    migrateBlossomMetadata dst src owner s0 d0 =
      { trace := Event.list owner none :: blobs.map Event.recv ++
          [Event.log (startRecord blobs.length)] ++
          (migrateLoop dst src owner blobs
            { outbox := (src.List s0 owner).2, blossom := d0, migrated := [] }).1 ++
          [Event.log (completedRecord (migrateLoop dst src owner blobs
            { outbox := (src.List s0 owner).2, blossom := d0, migrated := [] }).2.migrated.len)],
        outbox := (migrateLoop dst src owner blobs
            { outbox := (src.List s0 owner).2, blossom := d0, migrated := [] }).2.outbox,
        blossom := (migrateLoop dst src owner blobs
            { outbox := (src.List s0 owner).2, blossom := d0, migrated := [] }).2.blossom,
        migrated := (migrateLoop dst src owner blobs
            { outbox := (src.List s0 owner).2, blossom := d0, migrated := [] }).2.migrated,
        exit := Exit.completed } := by
  simp [migrateBlossomMetadata, h, rangeChan_eq, hne, startRecord, completedRecord]

/-! ## Trace projections and concatenation -/

theorem keptDigests_append (a b : List Event) :
    keptDigests (a ++ b) = keptDigests a ++ keptDigests b := by
  induction a with
  | nil => rfl
  | cons e t ih => rcases e with _ | _ | ⟨_, _, _ | _⟩ | _ | _ <;> simp [keptDigests, ih]

theorem keepArgs_append (a b : List Event) :
    keepArgs (a ++ b) = keepArgs a ++ keepArgs b := by
  induction a with
  | nil => rfl
  | cons e t ih => cases e <;> simp [keepArgs, ih]

theorem failedKeeps_append (a b : List Event) :
    failedKeeps (a ++ b) = failedKeeps a + failedKeeps b := by
  induction a with
  | nil => simp [failedKeeps]
  | cons e t ih =>
    rcases e with _ | _ | ⟨_, _, _ | _⟩ | _ | _ <;> simp [failedKeeps, ih]
    omega

theorem keepDeleteCalls_append (a b : List Event) :
    keepDeleteCalls (a ++ b) = keepDeleteCalls a ++ keepDeleteCalls b := by
  induction a with
  | nil => rfl
  | cons e t ih => cases e <;> simp [keepDeleteCalls, ih]

theorem logRecords_append (a b : List Event) :
    logRecords (a ++ b) = logRecords a ++ logRecords b := by
  induction a with
  | nil => rfl
  | cons e t ih => cases e <;> simp [logRecords, ih]

theorem keepArgs_map_recv (bs : List BlobDescriptor) : keepArgs (bs.map Event.recv) = [] := by
  induction bs with
  | nil => rfl
  | cons b t ih => simp [keepArgs, ih]

theorem keptDigests_map_recv (bs : List BlobDescriptor) :
    keptDigests (bs.map Event.recv) = [] := by
  induction bs with
  | nil => rfl
  | cons b t ih => simp [keptDigests, ih]

theorem failedKeeps_map_recv (bs : List BlobDescriptor) :
    failedKeeps (bs.map Event.recv) = 0 := by
  induction bs with
  | nil => rfl
  | cons b t ih => simp [failedKeeps, ih]

theorem keepDeleteCalls_map_recv (bs : List BlobDescriptor) :
    keepDeleteCalls (bs.map Event.recv) = [] := by
  induction bs with
  | nil => rfl
  | cons b t ih => simp [keepDeleteCalls, ih]

theorem logRecords_map_recv (bs : List BlobDescriptor) :
    logRecords (bs.map Event.recv) = [] := by
  induction bs with
  | nil => rfl
  | cons b t ih => simp [logRecords, ih]

/-! ## The loop -/

/-- The loop never receives from the channel. -/
theorem migrateLoop_no_recv {σ τ : Type} (dst : BlobIndex τ) (src : BlobIndex σ)
    (owner : String) (blobs : List BlobDescriptor) (st : LoopState σ τ) (b : BlobDescriptor) :
    Event.recv b ∉ (migrateLoop dst src owner blobs st).1 := by
  induction blobs generalizing st with
  | nil => simp [migrateLoop_nil]
  | cons blob rest ih =>
    rw [migrateLoop_cons]
    have ih2 := ih (loopBody dst src owner st blob).2
    rcases loopBody_cases dst src owner st blob with ⟨err, _, hb⟩ | ⟨err, _, _, hb⟩ | ⟨_, _, hb⟩ <;>
      · rw [hb] at ih2 ⊢
        simpa using ih2

/-- The loop hands the normalized descriptors to `Keep`, one per descriptor, in order. -/
theorem migrateLoop_keepArgs {σ τ : Type} (dst : BlobIndex τ) (src : BlobIndex σ)
    (owner : String) (blobs : List BlobDescriptor) (st : LoopState σ τ) :
    keepArgs (migrateLoop dst src owner blobs st).1 = blobs.map normalizeType := by
  induction blobs generalizing st with
  | nil => simp [migrateLoop_nil, keepArgs]
  | cons blob rest ih =>
    rw [migrateLoop_cons, keepArgs_append, ih]
    rcases loopBody_cases dst src owner st blob with ⟨err, _, hb⟩ | ⟨err, _, _, hb⟩ | ⟨_, _, hb⟩ <;>
      · rw [hb]
        simp [keepArgs]

/-- The `Keep` and `Delete` calls of the loop are the prescribed ones. -/
theorem migrateLoop_followsProtocol {σ τ : Type} (dst : BlobIndex τ) (src : BlobIndex σ)
    (owner : String) (blobs : List BlobDescriptor) (st : LoopState σ τ) :
    followsProtocol owner blobs (keepDeleteCalls (migrateLoop dst src owner blobs st).1)
      = true := by
  induction blobs generalizing st with
  | nil => simp [migrateLoop_nil, keepDeleteCalls, followsProtocol]
  | cons blob rest ih =>
    rw [migrateLoop_cons, keepDeleteCalls_append]
    have ih2 := ih (loopBody dst src owner st blob).2
    rcases loopBody_cases dst src owner st blob with ⟨err, _, hb⟩ | ⟨err, _, _, hb⟩ | ⟨_, _, hb⟩ <;>
      · rw [hb] at ih2 ⊢
        simpa [keepDeleteCalls, followsProtocol] using ih2

/-- In a prescribed call sequence every `Delete` comes right after a `Keep` of the same
digest, under the same owner, that returned `nil`. -/
theorem followsProtocol_delete_after_keep (owner : String) (bs : List BlobDescriptor) :
    ∀ (cs pre post : List Event) (sha o : String) (e : Option GoError),
      followsProtocol owner bs cs = true → cs = pre ++ Event.delete sha o e :: post →
      ∃ pre2 b, pre = pre2 ++ [Event.keep b o none] ∧ b.SHA256 = sha := by
  induction bs with
  | nil =>
    intro cs pre post sha o e h hcs
    subst hcs
    cases pre <;> simp [followsProtocol] at h
  | cons b bs ih =>
    intro cs pre post sha o e h hcs
    match cs, h with
    | [], h => simp [followsProtocol] at h
    | Event.keep k o1 (some err) :: t, h =>
      simp only [followsProtocol, Bool.and_eq_true, decide_eq_true_eq] at h
      obtain ⟨⟨hk, ho⟩, ht⟩ := h
      cases pre with
      | nil => simp at hcs
      | cons p pre1 =>
        simp only [List.cons_append, List.cons.injEq] at hcs
        obtain ⟨pre2, b2, hp, hs⟩ := ih t pre1 post sha o e ht hcs.2
        exact ⟨p :: pre2, b2, by simp [hp], hs⟩
    | [Event.keep k o1 none], h => simp [followsProtocol] at h
    | Event.keep k o1 none :: Event.delete sha2 o2 e2 :: t, h =>
      simp only [followsProtocol, Bool.and_eq_true, decide_eq_true_eq] at h
      obtain ⟨⟨⟨⟨hk, ho⟩, hsha⟩, ho2⟩, ht⟩ := h
      cases pre with
      | nil => simp at hcs
      | cons p pre1 =>
        simp only [List.cons_append, List.cons.injEq] at hcs
        obtain ⟨hp, hrest⟩ := hcs
        cases pre1 with
        | nil =>
          simp only [List.nil_append, List.cons.injEq, Event.delete.injEq] at hrest
          obtain ⟨⟨h1, h2, _⟩, _⟩ := hrest
          refine ⟨[], k, ?_, ?_⟩
          · simp [← hp, ← h2, ho, ho2]
          · rw [hk, normalizeType_SHA256, ← h1, hsha]
        | cons q pre3 =>
          simp only [List.cons_append, List.cons.injEq] at hrest
          obtain ⟨pre2, b2, hp2, hs⟩ := ih t pre3 post sha o e ht hrest.2
          exact ⟨p :: q :: pre2, b2, by simp [hp2], hs⟩
    | Event.keep k o1 none :: Event.keep _ _ _ :: t, h => simp [followsProtocol] at h
    | Event.keep k o1 none :: Event.list _ _ :: t, h => simp [followsProtocol] at h
    | Event.keep k o1 none :: Event.recv _ :: t, h => simp [followsProtocol] at h
    | Event.keep k o1 none :: Event.log _ :: t, h => simp [followsProtocol] at h
    | Event.list _ _ :: t, h => simp [followsProtocol] at h
    | Event.recv _ :: t, h => simp [followsProtocol] at h
    | Event.delete _ _ _ :: t, h => simp [followsProtocol] at h
    | Event.log _ :: t, h => simp [followsProtocol] at h

/-- The loop never calls `List`. -/
theorem migrateLoop_no_list {σ τ : Type} (dst : BlobIndex τ) (src : BlobIndex σ)
    (owner : String) (blobs : List BlobDescriptor) (st : LoopState σ τ) (o : String)
    (e : Option GoError) :
    Event.list o e ∉ (migrateLoop dst src owner blobs st).1 := by
  induction blobs generalizing st with
  | nil => simp [migrateLoop_nil]
  | cons blob rest ih =>
    rw [migrateLoop_cons]
    have ih2 := ih (loopBody dst src owner st blob).2
    rcases loopBody_cases dst src owner st blob with ⟨err, _, hb⟩ | ⟨err, _, _, hb⟩ | ⟨_, _, hb⟩ <;>
      · rw [hb] at ih2 ⊢
        simpa using ih2

theorem GoMap.mem_assign (m : GoMap) (k : String) (v : BlobDescriptor)
    (kv : String × BlobDescriptor) (h : kv ∈ m.assign k v) : kv ∈ m ∨ kv = (k, v) := by
  induction m with
  | nil => simpa [GoMap.assign] using h
  | cons hd t ih =>
    obtain ⟨k0, v0⟩ := hd
    by_cases hk : k0 = k
    · simp only [GoMap.assign, hk, if_true, List.mem_cons] at h
      rcases h with h | h
      · exact Or.inr h
      · exact Or.inl (List.mem_cons_of_mem _ h)
    · simp only [GoMap.assign, hk, if_false, List.mem_cons] at h
      rcases h with h | h
      · exact Or.inl (h ▸ List.mem_cons_self _ _)
      · rcases ih h with h2 | h2
        · exact Or.inl (List.mem_cons_of_mem _ h2)
        · exact Or.inr h2

/-- Every entry of the map after the loop was there before it or records the normalized
form of an enumerated descriptor under its digest. -/
theorem migrateLoop_migrated_mem {σ τ : Type} (dst : BlobIndex τ) (src : BlobIndex σ)
    (owner : String) (blobs : List BlobDescriptor) (st : LoopState σ τ)
    (kv : String × BlobDescriptor)
    (h : kv ∈ (migrateLoop dst src owner blobs st).2.migrated) :
    kv ∈ st.migrated ∨ ∃ b ∈ blobs, kv = (b.SHA256, normalizeType b) := by
  induction blobs generalizing st with
  | nil => exact Or.inl (by simpa [migrateLoop_nil] using h)
  | cons blob rest ih =>
    rw [migrateLoop_cons] at h
    rcases ih _ h with h2 | ⟨b, hb, hkv⟩
    · rcases loopBody_cases dst src owner st blob with ⟨err, _, hb⟩ | ⟨err, _, _, hb⟩ | ⟨_, _, hb⟩
      · rw [hb] at h2
        exact Or.inl h2
      · rw [hb] at h2
        rcases GoMap.mem_assign _ _ _ _ h2 with h3 | h3
        · exact Or.inl h3
        · exact Or.inr ⟨blob, List.mem_cons_self _ _, h3⟩
      · rw [hb] at h2
        rcases GoMap.mem_assign _ _ _ _ h2 with h3 | h3
        · exact Or.inl h3
        · exact Or.inr ⟨blob, List.mem_cons_self _ _, h3⟩
    · exact Or.inr ⟨b, List.mem_cons_of_mem _ hb, hkv⟩

theorem normalizeType_eq (b : BlobDescriptor) :
    normalizeType b =
      { b with Type_ := if b.Type_ = "" then "application/octet-stream" else b.Type_ } := by
  unfold normalizeType; split <;> rfl

/-! ## The claims -/

/-- C5 (media-type normalization): when the enumeration succeeds, the descriptors handed to
the destination `Keep` are, in order, the enumerated ones with an empty media type replaced
by `application/octet-stream` and every other field, digest and size included, unchanged;
and every entry recorded in `migrated` is such a descriptor under its digest. -/
theorem media_type_normalization {σ τ : Type} (dst : BlobIndex τ) (src : BlobIndex σ)
    (owner : String) (s0 : σ) (d0 : τ) (blobs : List BlobDescriptor)
    (h : (src.List s0 owner).1 = Except.ok blobs) :
    keepArgs (migrateBlossomMetadata dst src owner s0 d0).trace =
      blobs.map (fun b =>
        { b with Type_ := if b.Type_ = "" then "application/octet-stream" else b.Type_ }) ∧
    ∀ kv ∈ (migrateBlossomMetadata dst src owner s0 d0).migrated, ∃ b ∈ blobs,
      kv = (b.SHA256,
        { b with Type_ := if b.Type_ = "" then "application/octet-stream" else b.Type_ }) := by
  have hn : (fun b : BlobDescriptor =>
      ({ b with Type_ := if b.Type_ = "" then "application/octet-stream" else b.Type_ } :
        BlobDescriptor)) = normalizeType := by
    funext b; exact (normalizeType_eq b).symm
  by_cases hne : blobs = []
  · subst hne
    rw [run_list_empty dst src owner s0 d0 h]
    simp [keepArgs]
  · rw [run_list_ok dst src owner s0 d0 blobs h hne]
    refine ⟨?_, ?_⟩
    · rw [hn]
      simp [keepArgs_append, keepArgs, keepArgs_map_recv, migrateLoop_keepArgs]
    · intro kv hkv
      rcases migrateLoop_migrated_mem dst src owner blobs _ kv hkv with h2 | ⟨b, hb, h3⟩
      · simp at h2
      · exact ⟨b, hb, by rw [h3, normalizeType_eq]⟩

/-- Witness for C5 on the partial-failure scenario. -/
theorem media_type_normalization_witness :
    keepArgs partialFailureRun.trace =
      [mkBlob "aa" "image/png" 10, mkBlob "bb" "application/octet-stream" 1024,
       mkBlob "cc" "text/plain" 7] :=
  (media_type_normalization memIndex memIndex "pk" outbox3 blossomFailSecond
    [mkBlob "aa" "image/png" 10, mkBlob "bb" "" 1024, mkBlob "cc" "text/plain" 7] rfl).1

/-- C6 (enumeration failure is fatal, and nothing else is): if `List` returns an error the
run consists of that call and one error record, calls neither `Keep` nor `Delete`, leaves
the destination as it was and has migrated nothing; if `List` succeeds the run does not
take that exit whatever `Keep` and `Delete` return: every enumerated descriptor gets its
`Keep`, and a non-empty enumeration runs to the completion record. -/
theorem enumeration_failure_is_fatal {σ τ : Type} (dst : BlobIndex τ) (src : BlobIndex σ)
    (owner : String) (s0 : σ) (d0 : τ) :
    match (src.List s0 owner).1 with
    | Except.error err =>
      (migrateBlossomMetadata dst src owner s0 d0).trace =
        [Event.list owner (some err),
         Event.log ⟨Level.Error, "🚫 Failed to list blobs", [("error", LogValue.err err)]⟩] ∧
      keepDeleteCalls (migrateBlossomMetadata dst src owner s0 d0).trace = [] ∧
      (migrateBlossomMetadata dst src owner s0 d0).migrated.len = 0 ∧
      (migrateBlossomMetadata dst src owner s0 d0).blossom = d0 ∧
      (migrateBlossomMetadata dst src owner s0 d0).outbox = (src.List s0 owner).2 ∧
      (migrateBlossomMetadata dst src owner s0 d0).exit = Exit.listFailed
    | Except.ok blobs =>
      (migrateBlossomMetadata dst src owner s0 d0).exit =
        (if blobs = [] then Exit.nothingToMigrate else Exit.completed) ∧
      (keepArgs (migrateBlossomMetadata dst src owner s0 d0).trace).length = blobs.length ∧
      (blobs ≠ [] → ∃ pre, (migrateBlossomMetadata dst src owner s0 d0).trace =
        pre ++ [Event.log (completedRecord
          (migrateBlossomMetadata dst src owner s0 d0).migrated.len)]) := by
  rcases h : (src.List s0 owner).1 with err | blobs
  · simp only
    rw [run_list_error dst src owner s0 d0 err h]
    simp [keepDeleteCalls, GoMap.len]
  · simp only
    by_cases hne : blobs = []
    · subst hne
      rw [run_list_empty dst src owner s0 d0 h]
      simp [keepArgs]
    · rw [run_list_ok dst src owner s0 d0 blobs h hne]
      refine ⟨by simp [hne], ?_, fun _ => ⟨_, rfl⟩⟩
      simp [keepArgs_append, keepArgs, keepArgs_map_recv, migrateLoop_keepArgs]

/-- C7 (empty-set handling): when the enumeration succeeds and yields no descriptor, the
run consists of the `List` call and the record "No blobs found to migrate"; it calls
neither `Keep` nor `Delete`, leaves the destination as it was, and has migrated nothing. -/
theorem empty_set_handling {σ τ : Type} (dst : BlobIndex τ) (src : BlobIndex σ)
    (owner : String) (s0 : σ) (d0 : τ)
    (h : (src.List s0 owner).1 = Except.ok []) :
    (migrateBlossomMetadata dst src owner s0 d0).trace =
      [Event.list owner none,
       Event.log ⟨Level.Debug, "No blobs found to migrate",
         [("ownerPubkey", LogValue.str owner)]⟩] ∧
    keepDeleteCalls (migrateBlossomMetadata dst src owner s0 d0).trace = [] ∧
    (migrateBlossomMetadata dst src owner s0 d0).migrated.len = 0 ∧
    (migrateBlossomMetadata dst src owner s0 d0).blossom = d0 ∧
    (migrateBlossomMetadata dst src owner s0 d0).outbox = (src.List s0 owner).2 ∧
    (migrateBlossomMetadata dst src owner s0 d0).exit = Exit.nothingToMigrate := by
  rw [run_list_empty dst src owner s0 d0 h]
  simp [keepDeleteCalls, GoMap.len]

/-- Witness for C7: an owner with no descriptor in the outbox. -/
theorem empty_set_handling_witness :
    (migrateBlossomMetadata memIndex memIndex "pk" ⟨[], []⟩ outbox3).trace =
      [Event.list "pk" none,
       Event.log ⟨Level.Debug, "No blobs found to migrate",
         [("ownerPubkey", LogValue.str "pk")]⟩] ∧
    (migrateBlossomMetadata memIndex memIndex "pk" ⟨[], []⟩ outbox3).blossom = outbox3 :=
  have w := empty_set_handling memIndex memIndex "pk" ⟨[], []⟩ outbox3 rfl
  ⟨w.1, w.2.2.2.1⟩

/-- Counterexample to C9 as stated: in the three-descriptor scenario the last receive is
event 3 of the trace and the first `Keep` is event 6, so all three descriptors have been
taken from the channel before anything is written. -/
theorem lazy_consumption_fails :
    (memIndex.List outbox3 "pk").1 =
      Except.ok [mkBlob "aa" "image/png" 10, mkBlob "bb" "" 1024, mkBlob "cc" "text/plain" 7] ∧
    lastRecvIdx partialFailureRun.trace = some 3 ∧
    firstKeepIdx partialFailureRun.trace = some 6 ∧
    consumesLazily partialFailureRun.trace = false := by
  refine ⟨rfl, ?_, ?_, ?_⟩ <;> decide

/-- C9 as amended (eager consumption): when the enumeration succeeds, the trace is the
`List` call, then one receive per enumerated descriptor, then a remainder that contains no
receive and all the `Keep` calls: the channel is drained into `blobs` before the first
`Keep`. -/
theorem enumeration_drained_before_first_keep {σ τ : Type} (dst : BlobIndex τ)
    (src : BlobIndex σ) (owner : String) (s0 : σ) (d0 : τ) (blobs : List BlobDescriptor)
    (h : (src.List s0 owner).1 = Except.ok blobs) :
    ∃ rest, (migrateBlossomMetadata dst src owner s0 d0).trace =
        Event.list owner none :: blobs.map Event.recv ++ rest ∧
      (∀ b, Event.recv b ∉ rest) ∧
      keepArgs rest = blobs.map normalizeType ∧
      keepArgs (Event.list owner none :: blobs.map Event.recv) = [] := by
  by_cases hne : blobs = []
  · subst hne
    rw [run_list_empty dst src owner s0 d0 h]
    exact ⟨_, rfl, by simp, by simp [keepArgs], by simp [keepArgs]⟩
  · rw [run_list_ok dst src owner s0 d0 blobs h hne]
    refine ⟨[Event.log (startRecord blobs.length)] ++
        (migrateLoop dst src owner blobs
          { outbox := (src.List s0 owner).2, blossom := d0, migrated := [] }).1 ++
        [Event.log (completedRecord (migrateLoop dst src owner blobs
          { outbox := (src.List s0 owner).2, blossom := d0, migrated := [] }).2.migrated.len)],
      by simp, ?_, ?_, ?_⟩
    · intro b
      simpa using migrateLoop_no_recv dst src owner blobs _ b
    · simp [keepArgs_append, keepArgs, migrateLoop_keepArgs]
    · simp [keepArgs, keepArgs_map_recv]

/-- Witness for C9 as amended, on the three-descriptor scenario. -/
theorem enumeration_drained_before_first_keep_witness :
    ∃ rest, partialFailureRun.trace =
        Event.list "pk" none ::
          [mkBlob "aa" "image/png" 10, mkBlob "bb" "" 1024,
           mkBlob "cc" "text/plain" 7].map Event.recv ++ rest ∧
      (∀ b, Event.recv b ∉ rest) ∧
      keepArgs rest = [mkBlob "aa" "image/png" 10, mkBlob "bb" "" 1024,
           mkBlob "cc" "text/plain" 7].map normalizeType ∧
      keepArgs (Event.list "pk" none ::
          [mkBlob "aa" "image/png" 10, mkBlob "bb" "" 1024,
           mkBlob "cc" "text/plain" 7].map Event.recv) = [] :=
  enumeration_drained_before_first_keep memIndex memIndex "pk" outbox3 blossomFailSecond
    [mkBlob "aa" "image/png" 10, mkBlob "bb" "" 1024, mkBlob "cc" "text/plain" 7] rfl

/-- C10 (call trace): when the enumeration succeeds, the run calls `List` once, first, and
its `Keep` and `Delete` calls are exactly the prescribed sequence: per enumerated
descriptor, in order, one `Keep` of the normalized descriptor under the owner and, exactly
when it returned `nil`, one `Delete` of that digest under the owner.  Hence there are as
many `Keep` calls as descriptors, whatever failed before, and every `Delete` comes right
after a `Keep` of the same digest that returned `nil`. -/
theorem call_trace {σ τ : Type} (dst : BlobIndex τ) (src : BlobIndex σ)
    (owner : String) (s0 : σ) (d0 : τ) (blobs : List BlobDescriptor)
    (h : (src.List s0 owner).1 = Except.ok blobs) :
    followsProtocol owner blobs
      (keepDeleteCalls (migrateBlossomMetadata dst src owner s0 d0).trace) = true ∧
    (∃ rest, (migrateBlossomMetadata dst src owner s0 d0).trace =
        Event.list owner none :: rest ∧ ∀ o e, Event.list o e ∉ rest) ∧
    (keepArgs (migrateBlossomMetadata dst src owner s0 d0).trace).length = blobs.length ∧
    ∀ (pre post : List Event) (sha o : String) (e : Option GoError),
      keepDeleteCalls (migrateBlossomMetadata dst src owner s0 d0).trace =
        pre ++ Event.delete sha o e :: post →
      ∃ pre2 b, pre = pre2 ++ [Event.keep b o none] ∧ b.SHA256 = sha := by
  have key : followsProtocol owner blobs
      (keepDeleteCalls (migrateBlossomMetadata dst src owner s0 d0).trace) = true := by
    by_cases hne : blobs = []
    · subst hne
      rw [run_list_empty dst src owner s0 d0 h]
      simp [keepDeleteCalls, followsProtocol]
    · rw [run_list_ok dst src owner s0 d0 blobs h hne]
      simpa [keepDeleteCalls_append, keepDeleteCalls, keepDeleteCalls_map_recv] using
        migrateLoop_followsProtocol dst src owner blobs
          { outbox := (src.List s0 owner).2, blossom := d0, migrated := [] }
  refine ⟨key, ?_, ?_, ?_⟩
  · by_cases hne : blobs = []
    · subst hne
      rw [run_list_empty dst src owner s0 d0 h]
      exact ⟨_, rfl, by simp⟩
    · rw [run_list_ok dst src owner s0 d0 blobs h hne]
      refine ⟨_, by simp only [List.cons_append]; rfl, ?_⟩
      intro o e
      simpa using migrateLoop_no_list dst src owner blobs _ o e
  · by_cases hne : blobs = []
    · subst hne
      rw [run_list_empty dst src owner s0 d0 h]
      simp [keepArgs]
    · rw [run_list_ok dst src owner s0 d0 blobs h hne]
      simp [keepArgs_append, keepArgs, keepArgs_map_recv, migrateLoop_keepArgs]
  · intro pre post sha o e hcs
    exact followsProtocol_delete_after_keep owner blobs _ pre post sha o e key hcs

/-- Witness for C10 on the three-descriptor scenario. -/
theorem call_trace_witness :
    keepDeleteCalls partialFailureRun.trace =
      [Event.keep (mkBlob "aa" "image/png" 10) "pk" none, Event.delete "aa" "pk" none,
       Event.keep (mkBlob "bb" "application/octet-stream" 1024) "pk" (some "StoreWriteError"),
       Event.keep (mkBlob "cc" "text/plain" 7) "pk" none, Event.delete "cc" "pk" none] ∧
    followsProtocol "pk"
      [mkBlob "aa" "image/png" 10, mkBlob "bb" "" 1024, mkBlob "cc" "text/plain" 7]
      (keepDeleteCalls partialFailureRun.trace) = true :=
  ⟨by decide,
   (call_trace memIndex memIndex "pk" outbox3 blossomFailSecond
    [mkBlob "aa" "image/png" 10, mkBlob "bb" "" 1024, mkBlob "cc" "text/plain" 7] rfl).1⟩


/-! ## The `migrated` map -/

/-- The keys of a map, in entry order. -/
theorem GoMap.keys_assign (m : GoMap) (k : String) (v : BlobDescriptor) :
    (m.assign k v).map Prod.fst =
      if k ∈ m.map Prod.fst then m.map Prod.fst else m.map Prod.fst ++ [k] := by
  induction m with
  | nil => simp [GoMap.assign]
  | cons hd t ih =>
    obtain ⟨k0, v0⟩ := hd
    by_cases hk : k0 = k
    · simp [GoMap.assign, hk]
    · have hk2 : ¬ k = k0 := fun e => hk e.symm
      by_cases hm : k ∈ t.map Prod.fst
      · simp only [GoMap.assign, hk, if_false, List.map_cons, ih, hm, if_true,
          List.mem_cons, or_true]
      · simp only [GoMap.assign, hk, if_false, List.map_cons, ih, hm, List.mem_cons, hk2,
          or_self, List.cons_append]

theorem GoMap.nodup_keys_assign (m : GoMap) (k : String) (v : BlobDescriptor)
    (h : (m.map Prod.fst).Nodup) : ((m.assign k v).map Prod.fst).Nodup := by
  rw [GoMap.keys_assign]
  split
  · exact h
  · rename_i hk
    rw [List.nodup_append]
    exact ⟨h, List.nodup_singleton k, by simpa using hk⟩

theorem GoMap.mem_keys_assign (m : GoMap) (k : String) (v : BlobDescriptor) (x : String) :
    x ∈ (m.assign k v).map Prod.fst ↔ x ∈ m.map Prod.fst ∨ x = k := by
  rw [GoMap.keys_assign]
  split
  · rename_i hk
    constructor
    · exact Or.inl
    · rintro (h | h)
      · exact h
      · exact h ▸ hk
  · simp

/-- The loop keeps the keys of `migrated` distinct and adds to them exactly the digests
whose `Keep` returned `nil`. -/
theorem migrateLoop_keys {σ τ : Type} (dst : BlobIndex τ) (src : BlobIndex σ)
    (owner : String) (blobs : List BlobDescriptor) (st : LoopState σ τ)
    (hn : (st.migrated.map Prod.fst).Nodup) :
    ((migrateLoop dst src owner blobs st).2.migrated.map Prod.fst).Nodup ∧
    ∀ x, x ∈ (migrateLoop dst src owner blobs st).2.migrated.map Prod.fst ↔
      x ∈ st.migrated.map Prod.fst ∨ x ∈ keptDigests (migrateLoop dst src owner blobs st).1 := by
  induction blobs generalizing st with
  | nil => simp [migrateLoop_nil, keptDigests, hn]
  | cons blob rest ih =>
    rw [migrateLoop_cons, keptDigests_append]
    rcases loopBody_cases dst src owner st blob with ⟨err, _, hb⟩ | ⟨err, _, _, hb⟩ | ⟨_, _, hb⟩
    · have ih2 := ih (loopBody dst src owner st blob).2 (by rw [hb]; exact hn)
      rw [hb] at ih2 ⊢
      refine ⟨ih2.1, fun x => ?_⟩
      rw [ih2.2 x]
      simp [keptDigests]
    · have ih2 := ih (loopBody dst src owner st blob).2
        (by rw [hb]; exact GoMap.nodup_keys_assign _ _ _ hn)
      rw [hb] at ih2 ⊢
      refine ⟨ih2.1, fun x => ?_⟩
      rw [ih2.2 x, GoMap.mem_keys_assign]
      simp [keptDigests, normalizeType_SHA256, or_assoc]
    · have ih2 := ih (loopBody dst src owner st blob).2
        (by rw [hb]; exact GoMap.nodup_keys_assign _ _ _ hn)
      rw [hb] at ih2 ⊢
      refine ⟨ih2.1, fun x => ?_⟩
      rw [ih2.2 x, GoMap.mem_keys_assign]
      simp [keptDigests, normalizeType_SHA256, or_assoc]

/-- After a loop started on an empty map, `len(migrated)` is the number of distinct digests
whose `Keep` returned `nil`. -/
theorem migrateLoop_len {σ τ : Type} (dst : BlobIndex τ) (src : BlobIndex σ)
    (owner : String) (blobs : List BlobDescriptor) (st : LoopState σ τ)
    (h0 : st.migrated = []) :
    (migrateLoop dst src owner blobs st).2.migrated.len =
      (keptDigests (migrateLoop dst src owner blobs st).1).dedup.length := by
  obtain ⟨hnd, hmem⟩ := migrateLoop_keys dst src owner blobs st (by simp [h0])
  have hp : List.Perm ((migrateLoop dst src owner blobs st).2.migrated.map Prod.fst)
      (keptDigests (migrateLoop dst src owner blobs st).1).dedup := by
    rw [List.perm_ext_iff_of_nodup hnd (List.nodup_dedup _)]
    intro x
    rw [hmem x, List.mem_dedup]
    simp [h0]
  have := hp.length_eq
  simpa [GoMap.len] using this

/-- Every descriptor either has its digest among the kept ones or counts as a failed
`Keep`; the kept digests are a sublist of the enumerated ones. -/
theorem migrateLoop_kept_failed {σ τ : Type} (dst : BlobIndex τ) (src : BlobIndex σ)
    (owner : String) (blobs : List BlobDescriptor) (st : LoopState σ τ) :
    (keptDigests (migrateLoop dst src owner blobs st).1).length +
      failedKeeps (migrateLoop dst src owner blobs st).1 = blobs.length ∧
    List.Sublist (keptDigests (migrateLoop dst src owner blobs st).1)
      (blobs.map (fun b => b.SHA256)) := by
  induction blobs generalizing st with
  | nil => simp [migrateLoop_nil, keptDigests, failedKeeps]
  | cons blob rest ih =>
    rw [migrateLoop_cons, keptDigests_append, failedKeeps_append]
    obtain ⟨ih1, ih2⟩ := ih (loopBody dst src owner st blob).2
    rcases loopBody_cases dst src owner st blob with ⟨err, _, hb⟩ | ⟨err, _, _, hb⟩ | ⟨_, _, hb⟩
    · simp only [hb] at ih1 ih2 ⊢
      refine ⟨?_, ?_⟩
      · simp only [keptDigests, failedKeeps, List.length_nil, List.length_append,
          List.length_cons, List.nil_append]
        omega
      · simpa [keptDigests] using List.Sublist.cons _ ih2
    · simp only [hb] at ih1 ih2 ⊢
      refine ⟨?_, ?_⟩
      · simp only [keptDigests, failedKeeps, List.length_nil, List.length_append,
          List.length_cons, List.nil_append]
        omega
      · simpa [keptDigests, normalizeType_SHA256] using ih2
    · simp only [hb] at ih1 ih2 ⊢
      refine ⟨?_, ?_⟩
      · simp only [keptDigests, failedKeeps, List.length_nil, List.length_append,
          List.length_cons, List.nil_append]
        omega
      · simpa [keptDigests, normalizeType_SHA256] using ih2

/-- The destination state after an iteration is the one `Keep` returned. -/
theorem loopBody_blossom {σ τ : Type} (dst : BlobIndex τ) (src : BlobIndex σ)
    (owner : String) (st : LoopState σ τ) (blob : BlobDescriptor) :
    (loopBody dst src owner st blob).2.blossom =
      (dst.Keep st.blossom (normalizeType blob) owner).2 := by
  rcases loopBody_cases dst src owner st blob with ⟨e, _, h⟩ | ⟨e, _, _, h⟩ | ⟨_, _, h⟩ <;>
    simp [h]

/-- The map after an iteration: assigned exactly when `Keep` returned `nil`. -/
theorem loopBody_migrated {σ τ : Type} (dst : BlobIndex τ) (src : BlobIndex σ)
    (owner : String) (st : LoopState σ τ) (blob : BlobDescriptor) :
    (loopBody dst src owner st blob).2.migrated =
      if (dst.Keep st.blossom (normalizeType blob) owner).1 = none
      then st.migrated.assign blob.SHA256 (normalizeType blob) else st.migrated := by
  rcases loopBody_cases dst src owner st blob with ⟨e, h1, h⟩ | ⟨e, h1, _, h⟩ | ⟨h1, _, h⟩ <;>
    simp [h, h1]

/-- What the loop does to the destination and to `migrated` does not depend on the source
index, nor on what its `Delete` returns. -/
theorem migrateLoop_source_independent {σ σ2 τ : Type} (dst : BlobIndex τ)
    (src : BlobIndex σ) (src2 : BlobIndex σ2) (owner : String) (blobs : List BlobDescriptor)
    (st : LoopState σ τ) (st2 : LoopState σ2 τ)
    (hb : st.blossom = st2.blossom) (hm : st.migrated = st2.migrated) :
    (migrateLoop dst src owner blobs st).2.blossom =
      (migrateLoop dst src2 owner blobs st2).2.blossom ∧
    (migrateLoop dst src owner blobs st).2.migrated =
      (migrateLoop dst src2 owner blobs st2).2.migrated := by
  induction blobs generalizing st st2 with
  | nil => simp [migrateLoop_nil, hb, hm]
  | cons blob rest ih =>
    rw [migrateLoop_cons, migrateLoop_cons]
    apply ih
    · rw [loopBody_blossom, loopBody_blossom, hb]
    · rw [loopBody_migrated, loopBody_migrated, hb, hm]

/-- C3 (migrated count): for a non-empty enumeration the run ends with the completion
record, whose count is `len(migrated)` and equals the number of distinct digests whose
destination `Keep` returned `nil`; the recorded map is the same for any source index that
enumerates the same descriptors, whatever its `Delete` returns; and when the enumerated
digests are pairwise distinct, enumerated count minus migrated count is the number of
failed `Keep` calls. -/
theorem migrated_count {σ τ : Type} (dst : BlobIndex τ) (src : BlobIndex σ)
    (owner : String) (s0 : σ) (d0 : τ) (blobs : List BlobDescriptor)
    (h : (src.List s0 owner).1 = Except.ok blobs) (hne : blobs ≠ []) :
    (∃ pre, (migrateBlossomMetadata dst src owner s0 d0).trace = pre ++
      [Event.log ⟨Level.Info, "✅ Blob migration completed",
        [("migrated", LogValue.int
          (keptDigests (migrateBlossomMetadata dst src owner s0 d0).trace).dedup.length)]⟩]) ∧
    (migrateBlossomMetadata dst src owner s0 d0).migrated.len =
      (keptDigests (migrateBlossomMetadata dst src owner s0 d0).trace).dedup.length ∧
    (∀ (σ2 : Type) (src2 : BlobIndex σ2) (s2 : σ2), (src2.List s2 owner).1 = Except.ok blobs →
      (migrateBlossomMetadata dst src2 owner s2 d0).migrated =
        (migrateBlossomMetadata dst src owner s0 d0).migrated) ∧
    ((blobs.map (fun b => b.SHA256)).Nodup →
      blobs.length - (migrateBlossomMetadata dst src owner s0 d0).migrated.len =
        failedKeeps (migrateBlossomMetadata dst src owner s0 d0).trace) := by
  have hk : keptDigests (migrateBlossomMetadata dst src owner s0 d0).trace =
      keptDigests (migrateLoop dst src owner blobs
        { outbox := (src.List s0 owner).2, blossom := d0, migrated := [] }).1 := by
    rw [run_list_ok dst src owner s0 d0 blobs h hne]
    simp [keptDigests_append, keptDigests, keptDigests_map_recv]
  have hf : failedKeeps (migrateBlossomMetadata dst src owner s0 d0).trace =
      failedKeeps (migrateLoop dst src owner blobs
        { outbox := (src.List s0 owner).2, blossom := d0, migrated := [] }).1 := by
    rw [run_list_ok dst src owner s0 d0 blobs h hne]
    simp [failedKeeps_append, failedKeeps, failedKeeps_map_recv]
  have hlen := migrateLoop_len dst src owner blobs
    { outbox := (src.List s0 owner).2, blossom := d0, migrated := [] } rfl
  have hm : (migrateBlossomMetadata dst src owner s0 d0).migrated =
      (migrateLoop dst src owner blobs
        { outbox := (src.List s0 owner).2, blossom := d0, migrated := [] }).2.migrated := by
    rw [run_list_ok dst src owner s0 d0 blobs h hne]
  refine ⟨?_, ?_, ?_, ?_⟩
  · rw [hk, ← hlen]
    rw [run_list_ok dst src owner s0 d0 blobs h hne]
    exact ⟨_, rfl⟩
  · rw [hk, hm, hlen]
  · intro σ2 src2 s2 h2
    rw [hm, run_list_ok dst src2 owner s2 d0 blobs h2 hne]
    exact (migrateLoop_source_independent dst src2 src owner blobs _ _ rfl rfl).2
  · intro hnd
    obtain ⟨hsum, hsub⟩ := migrateLoop_kept_failed dst src owner blobs
      { outbox := (src.List s0 owner).2, blossom := d0, migrated := [] }
    have hd : (keptDigests (migrateLoop dst src owner blobs
        { outbox := (src.List s0 owner).2, blossom := d0, migrated := [] }).1).dedup =
        keptDigests (migrateLoop dst src owner blobs
        { outbox := (src.List s0 owner).2, blossom := d0, migrated := [] }).1 :=
      (List.Nodup.sublist hsub hnd).dedup
    rw [hf, hm, hlen, hd]
    omega

/-- Witness for C3, the partial-failure scenario of §8: three descriptors, `Keep` failing
on the second only; the run reports 2 migrated and 3 - 2 = 1 failed `Keep`. -/
theorem migrated_count_witness :
    (∃ pre, partialFailureRun.trace = pre ++
      [Event.log ⟨Level.Info, "✅ Blob migration completed",
        [("migrated", LogValue.int 2)]⟩]) ∧
    partialFailureRun.migrated.len = 2 ∧
    3 - partialFailureRun.migrated.len = failedKeeps partialFailureRun.trace := by
  have w := migrated_count memIndex memIndex "pk" outbox3 blossomFailSecond
    [mkBlob "aa" "image/png" 10, mkBlob "bb" "" 1024, mkBlob "cc" "text/plain" 7] rfl
    (by simp)
  have hk : (keptDigests partialFailureRun.trace).dedup.length = 2 := by decide
  refine ⟨?_, ?_, ?_⟩
  · have w1 := w.1
    rw [show (keptDigests (migrateBlossomMetadata memIndex memIndex "pk" outbox3
      blossomFailSecond).trace).dedup.length = 2 from hk] at w1
    exact w1
  · exact w.2.1.trans hk
  · exact w.2.2.2 (by decide)

/-! ## Log records of the loop -/

/-- Every failed `Keep` of the loop has its error record. -/
theorem migrateLoop_keep_failure_logged {σ τ : Type} (dst : BlobIndex τ) (src : BlobIndex σ)
    (owner : String) (blobs : List BlobDescriptor) (st : LoopState σ τ)
    (b : BlobDescriptor) (o : String) (err : GoError)
    (hmem : Event.keep b o (some err) ∈ (migrateLoop dst src owner blobs st).1) :
    Event.log (keepFailedRecord b.SHA256 err) ∈ (migrateLoop dst src owner blobs st).1 := by
  induction blobs generalizing st with
  | nil => simp [migrateLoop_nil] at hmem
  | cons blob rest ih =>
    rw [migrateLoop_cons, List.mem_append] at hmem ⊢
    rcases hmem with hmem | hmem
    · left
      rcases loopBody_cases dst src owner st blob with ⟨e, _, hb⟩ | ⟨e, _, _, hb⟩ | ⟨_, _, hb⟩
      · simp only [hb, List.mem_cons, Event.keep.injEq, Option.some.injEq, List.mem_singleton,
          List.not_mem_nil, or_false, false_or, reduceCtorEq] at hmem
        obtain ⟨rfl, _, rfl⟩ := hmem
        simp [hb, normalizeType_SHA256]
      · simp [hb] at hmem
      · simp [hb] at hmem
    · exact Or.inr (ih _ hmem)

/-- Every failed `Delete` of the loop has its error record. -/
theorem migrateLoop_delete_failure_logged {σ τ : Type} (dst : BlobIndex τ)
    (src : BlobIndex σ) (owner : String) (blobs : List BlobDescriptor) (st : LoopState σ τ)
    (sha o : String) (err : GoError)
    (hmem : Event.delete sha o (some err) ∈ (migrateLoop dst src owner blobs st).1) :
    Event.log (deleteFailedRecord sha err) ∈ (migrateLoop dst src owner blobs st).1 := by
  induction blobs generalizing st with
  | nil => simp [migrateLoop_nil] at hmem
  | cons blob rest ih =>
    rw [migrateLoop_cons, List.mem_append] at hmem ⊢
    rcases hmem with hmem | hmem
    · left
      rcases loopBody_cases dst src owner st blob with ⟨e, _, hb⟩ | ⟨e, _, _, hb⟩ | ⟨_, _, hb⟩
      · simp [hb] at hmem
      · simp only [hb, List.mem_cons, Event.delete.injEq, Option.some.injEq,
          List.mem_singleton, List.not_mem_nil, or_false, false_or, reduceCtorEq] at hmem
        obtain ⟨rfl, _, rfl⟩ := hmem
        simp [hb]
      · simp [hb] at hmem
    · exact Or.inr (ih _ hmem)

/-- The error records of the loop are failure records: digest and error, nothing else. -/
theorem migrateLoop_error_records {σ τ : Type} (dst : BlobIndex τ) (src : BlobIndex σ)
    (owner : String) (blobs : List BlobDescriptor) (st : LoopState σ τ) (r : LogRecord)
    (hmem : Event.log r ∈ (migrateLoop dst src owner blobs st).1)
    (hlev : r.level = Level.Error) :
    ∃ sha err, r = keepFailedRecord sha err ∨ r = deleteFailedRecord sha err := by
  induction blobs generalizing st with
  | nil => simp [migrateLoop_nil] at hmem
  | cons blob rest ih =>
    rw [migrateLoop_cons, List.mem_append] at hmem
    rcases hmem with hmem | hmem
    · rcases loopBody_cases dst src owner st blob with ⟨e, _, hb⟩ | ⟨e, _, _, hb⟩ | ⟨_, _, hb⟩
      · simp only [hb, List.mem_cons, Event.log.injEq, List.not_mem_nil, or_false,
          false_or, reduceCtorEq] at hmem
        rcases hmem with rfl | rfl
        · simp [movingRecord] at hlev
        · exact ⟨_, _, Or.inl rfl⟩
      · simp only [hb, List.mem_cons, Event.log.injEq, List.not_mem_nil, or_false,
          false_or, reduceCtorEq] at hmem
        rcases hmem with rfl | rfl
        · simp [movingRecord] at hlev
        · exact ⟨_, _, Or.inr rfl⟩
      · simp only [hb, List.mem_cons, Event.log.injEq, List.not_mem_nil, or_false,
          false_or, reduceCtorEq] at hmem
        subst hmem
        simp [movingRecord] at hlev
    · exact ih _ hmem

/-- Every descriptor of the loop has its "Moving BlobDescriptor" record, which carries the
digest, the media type as enumerated and the size. -/
theorem migrateLoop_moving_logged {σ τ : Type} (dst : BlobIndex τ) (src : BlobIndex σ)
    (owner : String) (blobs : List BlobDescriptor) (st : LoopState σ τ)
    (b : BlobDescriptor) (hb : b ∈ blobs) :
    Event.log (movingRecord b) ∈ (migrateLoop dst src owner blobs st).1 := by
  induction blobs generalizing st with
  | nil => simp at hb
  | cons blob rest ih =>
    rw [migrateLoop_cons, List.mem_append]
    rcases List.mem_cons.1 hb with rfl | hb2
    · left
      rcases loopBody_cases dst src owner st b with ⟨e, _, h⟩ | ⟨e, _, _, h⟩ | ⟨_, _, h⟩ <;>
        simp [h]
    · exact Or.inr (ih _ hb2)

/-! ## Where the records stand in the trace -/

/-- An event that occurs in `front ++ middle ++ [last]`, but neither in `front` nor as
`last`, occurs in `middle`, and the split of the whole list is a split of `middle`. -/
theorem split_in_middle (front middle pre post : List Event) (last x : Event)
    (hfront : x ∉ front) (hlast : x ≠ last)
    (h : front ++ middle ++ [last] = pre ++ x :: post) :
    ∃ pre2 post2, middle = pre2 ++ x :: post2 ∧ pre = front ++ pre2 ∧
      post = post2 ++ [last] := by
  induction front generalizing pre with
  | nil =>
    simp only [List.nil_append] at h ⊢
    rcases List.append_eq_append_iff.1 h with ⟨a, hpre, ha⟩ | ⟨c, hmid, hc⟩
    · rcases a with _ | ⟨a1, a2⟩
      · simp only [List.nil_append, List.cons.injEq] at ha
        exact absurd ha.1.symm hlast
      · simp only [List.cons_append, List.cons.injEq] at ha
        have := ha.2
        simp at this
    · rcases c with _ | ⟨c1, c2⟩
      · simp only [List.nil_append, List.cons.injEq] at hc
        exact absurd hc.1 hlast
      · simp only [List.cons_append, List.cons.injEq] at hc
        obtain ⟨rfl, rfl⟩ := hc
        exact ⟨pre, c2, hmid, rfl, rfl⟩
  | cons f front ih =>
    rcases pre with _ | ⟨p, pre⟩
    · simp only [List.cons_append, List.nil_append, List.cons.injEq] at h
      exact absurd (h.1 ▸ List.mem_cons_self _ _) hfront
    · simp only [List.cons_append, List.cons.injEq] at h
      obtain ⟨rfl, h2⟩ := h
      obtain ⟨pre2, post2, hm, hp, hq⟩ :=
        ih pre (fun hx => hfront (List.mem_cons_of_mem _ hx)) h2
      exact ⟨pre2, post2, hm, by rw [hp]; rfl, hq⟩

/-- In the loop, a `Keep` that returned an error is followed at once by its error
record. -/
theorem migrateLoop_keep_failure_next {σ τ : Type} (dst : BlobIndex τ) (src : BlobIndex σ)
    (owner : String) (blobs : List BlobDescriptor) (st : LoopState σ τ)
    (b : BlobDescriptor) (o : String) (err : GoError) (pre post : List Event)
    (h : (migrateLoop dst src owner blobs st).1 = pre ++ Event.keep b o (some err) :: post) :
    ∃ post2, post = Event.log (keepFailedRecord b.SHA256 err) :: post2 := by
  induction blobs generalizing st pre with
  | nil =>
    rw [migrateLoop_nil] at h
    simp at h
  | cons blob rest ih =>
    rw [migrateLoop_cons] at h
    rcases loopBody_cases dst src owner st blob with ⟨e, _, hb⟩ | ⟨e, _, _, hb⟩ | ⟨_, _, hb⟩
    · rw [hb] at h
      rcases pre with _ | ⟨p1, _ | ⟨p2, _ | ⟨p3, pre3⟩⟩⟩
      · simp at h
      · simp only [List.cons_append, List.nil_append, List.cons.injEq, Event.keep.injEq,
          Option.some.injEq] at h
        obtain ⟨_, ⟨rfl, _, rfl⟩, hpost⟩ := h
        exact ⟨_, by rw [← hpost, normalizeType_SHA256]⟩
      · simp at h
      · simp only [List.cons_append, List.nil_append, List.cons.injEq] at h
        exact ih _ pre3 h.2.2.2
    · rw [hb] at h
      rcases pre with _ | ⟨p1, _ | ⟨p2, _ | ⟨p3, _ | ⟨p4, pre4⟩⟩⟩⟩
      · simp at h
      · simp at h
      · simp at h
      · simp at h
      · simp only [List.cons_append, List.nil_append, List.cons.injEq] at h
        exact ih _ pre4 h.2.2.2.2
    · rw [hb] at h
      rcases pre with _ | ⟨p1, _ | ⟨p2, _ | ⟨p3, pre3⟩⟩⟩
      · simp at h
      · simp at h
      · simp at h
      · simp only [List.cons_append, List.nil_append, List.cons.injEq] at h
        exact ih _ pre3 h.2.2.2

/-- In the loop, a `Delete` that returned an error is followed at once by its error
record. -/
theorem migrateLoop_delete_failure_next {σ τ : Type} (dst : BlobIndex τ)
    (src : BlobIndex σ) (owner : String) (blobs : List BlobDescriptor) (st : LoopState σ τ)
    (sha o : String) (err : GoError) (pre post : List Event)
    (h : (migrateLoop dst src owner blobs st).1 =
      pre ++ Event.delete sha o (some err) :: post) :
    ∃ post2, post = Event.log (deleteFailedRecord sha err) :: post2 := by
  induction blobs generalizing st pre with
  | nil =>
    rw [migrateLoop_nil] at h
    simp at h
  | cons blob rest ih =>
    rw [migrateLoop_cons] at h
    rcases loopBody_cases dst src owner st blob with ⟨e, _, hb⟩ | ⟨e, _, _, hb⟩ | ⟨_, _, hb⟩
    · rw [hb] at h
      rcases pre with _ | ⟨p1, _ | ⟨p2, _ | ⟨p3, pre3⟩⟩⟩
      · simp at h
      · simp at h
      · simp at h
      · simp only [List.cons_append, List.nil_append, List.cons.injEq] at h
        exact ih _ pre3 h.2.2.2
    · rw [hb] at h
      rcases pre with _ | ⟨p1, _ | ⟨p2, _ | ⟨p3, _ | ⟨p4, pre4⟩⟩⟩⟩
      · simp at h
      · simp at h
      · simp only [List.cons_append, List.nil_append, List.cons.injEq, Event.delete.injEq,
          Option.some.injEq] at h
        obtain ⟨_, _, ⟨rfl, _, rfl⟩, hpost⟩ := h
        exact ⟨_, hpost.symm⟩
      · simp at h
      · simp only [List.cons_append, List.nil_append, List.cons.injEq] at h
        exact ih _ pre4 h.2.2.2.2
    · rw [hb] at h
      rcases pre with _ | ⟨p1, _ | ⟨p2, _ | ⟨p3, pre3⟩⟩⟩
      · simp at h
      · simp at h
      · simp at h
      · simp only [List.cons_append, List.nil_append, List.cons.injEq] at h
        exact ih _ pre3 h.2.2.2

/-- In the loop, every `Keep` comes right after the "Moving BlobDescriptor" record of the
enumerated descriptor whose normalized form it is given. -/
theorem migrateLoop_moving_before_keep {σ τ : Type} (dst : BlobIndex τ) (src : BlobIndex σ)
    (owner : String) (blobs : List BlobDescriptor) (st : LoopState σ τ)
    (k : BlobDescriptor) (o : String) (e : Option GoError) (pre post : List Event)
    (h : (migrateLoop dst src owner blobs st).1 = pre ++ Event.keep k o e :: post) :
    ∃ pre2 b, b ∈ blobs ∧ k = normalizeType b ∧
      pre = pre2 ++ [Event.log (movingRecord b)] := by
  induction blobs generalizing st pre with
  | nil =>
    rw [migrateLoop_nil] at h
    simp at h
  | cons blob rest ih =>
    rw [migrateLoop_cons] at h
    rcases loopBody_cases dst src owner st blob with ⟨e1, _, hb⟩ | ⟨e1, _, _, hb⟩ | ⟨_, _, hb⟩
    · rw [hb] at h
      rcases pre with _ | ⟨p1, _ | ⟨p2, _ | ⟨p3, pre3⟩⟩⟩
      · simp at h
      · simp only [List.cons_append, List.nil_append, List.cons.injEq, Event.keep.injEq] at h
        obtain ⟨rfl, ⟨rfl, _, _⟩, _⟩ := h
        exact ⟨[], blob, List.mem_cons_self _ _, rfl, rfl⟩
      · simp at h
      · simp only [List.cons_append, List.nil_append, List.cons.injEq] at h
        obtain ⟨rfl, rfl, rfl, h4⟩ := h
        obtain ⟨pre2, b, hb2, hk, hp⟩ := ih _ pre3 h4
        exact ⟨_ :: _ :: _ :: pre2, b, List.mem_cons_of_mem _ hb2, hk, by rw [hp]; rfl⟩
    · rw [hb] at h
      rcases pre with _ | ⟨p1, _ | ⟨p2, _ | ⟨p3, _ | ⟨p4, pre4⟩⟩⟩⟩
      · simp at h
      · simp only [List.cons_append, List.nil_append, List.cons.injEq, Event.keep.injEq] at h
        obtain ⟨rfl, ⟨rfl, _, _⟩, _⟩ := h
        exact ⟨[], blob, List.mem_cons_self _ _, rfl, rfl⟩
      · simp at h
      · simp at h
      · simp only [List.cons_append, List.nil_append, List.cons.injEq] at h
        obtain ⟨rfl, rfl, rfl, rfl, h5⟩ := h
        obtain ⟨pre2, b, hb2, hk, hp⟩ := ih _ pre4 h5
        exact ⟨_ :: _ :: _ :: _ :: pre2, b, List.mem_cons_of_mem _ hb2, hk, by rw [hp]; rfl⟩
    · rw [hb] at h
      rcases pre with _ | ⟨p1, _ | ⟨p2, _ | ⟨p3, pre3⟩⟩⟩
      · simp at h
      · simp only [List.cons_append, List.nil_append, List.cons.injEq, Event.keep.injEq] at h
        obtain ⟨rfl, ⟨rfl, _, _⟩, _⟩ := h
        exact ⟨[], blob, List.mem_cons_self _ _, rfl, rfl⟩
      · simp at h
      · simp only [List.cons_append, List.nil_append, List.cons.injEq] at h
        obtain ⟨rfl, rfl, rfl, h4⟩ := h
        obtain ⟨pre2, b, hb2, hk, hp⟩ := ih _ pre3 h4
        exact ⟨_ :: _ :: _ :: pre2, b, List.mem_cons_of_mem _ hb2, hk, by rw [hp]; rfl⟩

/-- In the loop, every enumerated descriptor has its "Moving BlobDescriptor" record
followed at once by the `Keep` of its normalized form. -/
theorem migrateLoop_keep_after_moving {σ τ : Type} (dst : BlobIndex τ) (src : BlobIndex σ)
    (owner : String) (blobs : List BlobDescriptor) (st : LoopState σ τ)
    (b : BlobDescriptor) (hb : b ∈ blobs) :
    ∃ pre post e, (migrateLoop dst src owner blobs st).1 =
      pre ++ Event.log (movingRecord b) :: Event.keep (normalizeType b) owner e :: post := by
  induction blobs generalizing st with
  | nil => simp at hb
  | cons blob rest ih =>
    rw [migrateLoop_cons]
    rcases List.mem_cons.1 hb with rfl | hb2
    · rcases loopBody_cases dst src owner st b with ⟨e, _, h⟩ | ⟨e, _, _, h⟩ | ⟨_, _, h⟩
      · exact ⟨[], _, some e, by rw [h]; rfl⟩
      · exact ⟨[], _, none, by rw [h]; rfl⟩
      · exact ⟨[], _, none, by rw [h]; rfl⟩
    · obtain ⟨pre, post, e, hr⟩ := ih (loopBody dst src owner st blob).2 hb2
      exact ⟨(loopBody dst src owner st blob).1 ++ pre, post, e, by rw [hr, List.append_assoc]⟩

/-- In the loop, a record with a `type` or a `size` attribute is the "Moving
BlobDescriptor" record of an enumerated descriptor. -/
theorem migrateLoop_type_size_only_moving {σ τ : Type} (dst : BlobIndex τ)
    (src : BlobIndex σ) (owner : String) (blobs : List BlobDescriptor) (st : LoopState σ τ)
    (r : LogRecord) (hmem : Event.log r ∈ (migrateLoop dst src owner blobs st).1)
    (hattr : ∃ v, ("type", v) ∈ r.attrs ∨ ("size", v) ∈ r.attrs) :
    ∃ b ∈ blobs, r = movingRecord b := by
  induction blobs generalizing st with
  | nil => simp [migrateLoop_nil] at hmem
  | cons blob rest ih =>
    rw [migrateLoop_cons, List.mem_append] at hmem
    rcases hmem with hmem | hmem
    · obtain ⟨v, hv⟩ := hattr
      rcases loopBody_cases dst src owner st blob with ⟨e, _, hb⟩ | ⟨e, _, _, hb⟩ | ⟨_, _, hb⟩
      · simp only [hb, List.mem_cons, Event.log.injEq, List.not_mem_nil, or_false,
          false_or, reduceCtorEq] at hmem
        rcases hmem with rfl | rfl
        · exact ⟨blob, List.mem_cons_self _ _, rfl⟩
        · simp [keepFailedRecord] at hv
      · simp only [hb, List.mem_cons, Event.log.injEq, List.not_mem_nil, or_false,
          false_or, reduceCtorEq] at hmem
        rcases hmem with rfl | rfl
        · exact ⟨blob, List.mem_cons_self _ _, rfl⟩
        · simp [deleteFailedRecord] at hv
      · simp only [hb, List.mem_cons, Event.log.injEq, List.not_mem_nil, or_false,
          false_or, reduceCtorEq] at hmem
        subst hmem
        exact ⟨blob, List.mem_cons_self _ _, rfl⟩
    · obtain ⟨b, hb, hr⟩ := ih _ hmem
      exact ⟨b, List.mem_cons_of_mem _ hb, hr⟩

/-- Counterexample to C8 as stated: in the partial-failure scenario the `Keep` of digest
`bb` (media type `application/octet-stream` after normalization, size 1024) fails; the only
error record of the run carries the digest and the error, neither media type nor size; and
no record of the run carries the rejected descriptor's digest, media type and size. -/
theorem failure_record_lacks_type_and_size :
    Event.keep (mkBlob "bb" "application/octet-stream" 1024) "pk" (some "StoreWriteError")
      ∈ partialFailureRun.trace ∧
    (logRecords partialFailureRun.trace).filter (fun r => decide (r.level = Level.Error)) =
      [⟨Level.Error, "🚫 Failed to store blob in Blossom DB",
        [("sha256", LogValue.str "bb"), ("error", LogValue.err "StoreWriteError")]⟩] ∧
    (logRecords partialFailureRun.trace).all
      (fun r => !r.carries (mkBlob "bb" "application/octet-stream" 1024)) = true := by
  refine ⟨?_, ?_, ?_⟩ <;> decide

/-- The trace of a run over a non-empty enumeration: a front part without `Keep`, `Delete`
or log record other than the start record, then the events of the loop, then the
completion record. -/
theorem run_trace_shape {σ τ : Type} (dst : BlobIndex τ) (src : BlobIndex σ)
    (owner : String) (s0 : σ) (d0 : τ) (blobs : List BlobDescriptor)
    (h : (src.List s0 owner).1 = Except.ok blobs) (hne : blobs ≠ []) :
    (migrateBlossomMetadata dst src owner s0 d0).trace =
      (Event.list owner none :: blobs.map Event.recv ++
        [Event.log (startRecord blobs.length)]) ++
      (migrateLoop dst src owner blobs
        { outbox := (src.List s0 owner).2, blossom := d0, migrated := [] }).1 ++
      [Event.log (completedRecord (migrateLoop dst src owner blobs
        { outbox := (src.List s0 owner).2, blossom := d0, migrated := [] }).2.migrated.len)] := by
  rw [run_list_ok dst src owner s0 d0 blobs h hne]

/-- C8 as amended (failure logging): when the enumeration succeeds, every failed `Keep` and
every failed `Delete` is followed at once by an error record carrying the digest and the
error, and an error record of the run carries nothing else.  Media type and size are
carried only by the debug record "Moving BlobDescriptor": every enumerated descriptor has
this record, with its digest, its media type as enumerated and its size, right before its
`Keep`; every `Keep` comes right after the record of the descriptor it is given; and any
record of the run with a `type` or a `size` attribute is such a record. -/
theorem failure_logging {σ τ : Type} (dst : BlobIndex τ) (src : BlobIndex σ)
    (owner : String) (s0 : σ) (d0 : τ) (blobs : List BlobDescriptor)
    (h : (src.List s0 owner).1 = Except.ok blobs) :
    (∀ b o err, Event.keep b o (some err) ∈ (migrateBlossomMetadata dst src owner s0 d0).trace →
      Event.log ⟨Level.Error, "🚫 Failed to store blob in Blossom DB",
          [("sha256", LogValue.str b.SHA256), ("error", LogValue.err err)]⟩
        ∈ (migrateBlossomMetadata dst src owner s0 d0).trace) ∧
    (∀ sha o err,
      Event.delete sha o (some err) ∈ (migrateBlossomMetadata dst src owner s0 d0).trace →
      Event.log ⟨Level.Error, "🚫 Failed to delete blob from outbox DB",
          [("sha256", LogValue.str sha), ("error", LogValue.err err)]⟩
        ∈ (migrateBlossomMetadata dst src owner s0 d0).trace) ∧
    (∀ r, Event.log r ∈ (migrateBlossomMetadata dst src owner s0 d0).trace →
      r.level = Level.Error →
      ∃ sha err, r.attrs = [("sha256", LogValue.str sha), ("error", LogValue.err err)]) ∧
    (∀ b ∈ blobs, Event.log ⟨Level.Debug, "Moving BlobDescriptor",
        [("sha256", LogValue.str b.SHA256), ("type", LogValue.str b.Type_),
         ("size", LogValue.int b.Size)]⟩
      ∈ (migrateBlossomMetadata dst src owner s0 d0).trace) ∧
    (∀ pre post b o err, (migrateBlossomMetadata dst src owner s0 d0).trace =
        pre ++ Event.keep b o (some err) :: post →
      ∃ post2, post = Event.log ⟨Level.Error, "🚫 Failed to store blob in Blossom DB",
          [("sha256", LogValue.str b.SHA256), ("error", LogValue.err err)]⟩ :: post2) ∧
    (∀ pre post sha o err, (migrateBlossomMetadata dst src owner s0 d0).trace =
        pre ++ Event.delete sha o (some err) :: post →
      ∃ post2, post = Event.log ⟨Level.Error, "🚫 Failed to delete blob from outbox DB",
          [("sha256", LogValue.str sha), ("error", LogValue.err err)]⟩ :: post2) ∧
    (∀ pre post k o e, (migrateBlossomMetadata dst src owner s0 d0).trace =
        pre ++ Event.keep k o e :: post →
      ∃ pre2 b, b ∈ blobs ∧ k = normalizeType b ∧
        pre = pre2 ++ [Event.log ⟨Level.Debug, "Moving BlobDescriptor",
          [("sha256", LogValue.str b.SHA256), ("type", LogValue.str b.Type_),
           ("size", LogValue.int b.Size)]⟩]) ∧
    (∀ b ∈ blobs, ∃ pre post e, (migrateBlossomMetadata dst src owner s0 d0).trace =
        pre ++ Event.log ⟨Level.Debug, "Moving BlobDescriptor",
          [("sha256", LogValue.str b.SHA256), ("type", LogValue.str b.Type_),
           ("size", LogValue.int b.Size)]⟩ ::
          Event.keep (normalizeType b) owner e :: post) ∧
    (∀ r, Event.log r ∈ (migrateBlossomMetadata dst src owner s0 d0).trace →
      (∃ v, ("type", v) ∈ r.attrs ∨ ("size", v) ∈ r.attrs) →
      ∃ b ∈ blobs, r = ⟨Level.Debug, "Moving BlobDescriptor",
        [("sha256", LogValue.str b.SHA256), ("type", LogValue.str b.Type_),
         ("size", LogValue.int b.Size)]⟩) := by
  by_cases hne : blobs = []
  · subst hne
    rw [run_list_empty dst src owner s0 d0 h]
    refine ⟨by simp, by simp, by simp, by simp, ?_, ?_, ?_, by simp, ?_⟩
    · intro pre post b o err heq
      have hm : Event.keep b o (some err) ∈ pre ++ Event.keep b o (some err) :: post := by simp
      rw [← heq] at hm
      simp at hm
    · intro pre post sha o err heq
      have hm : Event.delete sha o (some err) ∈
          pre ++ Event.delete sha o (some err) :: post := by simp
      rw [← heq] at hm
      simp at hm
    · intro pre post k o e heq
      have hm : Event.keep k o e ∈ pre ++ Event.keep k o e :: post := by simp
      rw [← heq] at hm
      simp at hm
    · intro r hmem hattr
      simp only [List.mem_cons, Event.log.injEq, List.not_mem_nil, or_false, false_or,
        reduceCtorEq] at hmem
      subst hmem
      obtain ⟨v, hv⟩ := hattr
      simp at hv
  · have hshape := run_trace_shape dst src owner s0 d0 blobs h hne
    have hfk : ∀ k o e, Event.keep k o e ∉ (Event.list owner none :: blobs.map Event.recv ++
        [Event.log (startRecord blobs.length)]) := by
      intro k o e; simp
    have hfd : ∀ sha o e, Event.delete sha o e ∉
        (Event.list owner none :: blobs.map Event.recv ++
          [Event.log (startRecord blobs.length)]) := by
      intro sha o e; simp
    refine ⟨?_, ?_, ?_, ?_, ?_, ?_, ?_, ?_, ?_⟩
    · intro b o err hmem
      rw [hshape] at hmem ⊢
      have hmem2 : Event.keep b o (some err) ∈ (migrateLoop dst src owner blobs
          { outbox := (src.List s0 owner).2, blossom := d0, migrated := [] }).1 := by
        simpa using hmem
      have := migrateLoop_keep_failure_logged dst src owner blobs _ b o err hmem2
      simp only [keepFailedRecord] at this
      simp [this]
    · intro sha o err hmem
      rw [hshape] at hmem ⊢
      have hmem2 : Event.delete sha o (some err) ∈ (migrateLoop dst src owner blobs
          { outbox := (src.List s0 owner).2, blossom := d0, migrated := [] }).1 := by
        simpa using hmem
      have := migrateLoop_delete_failure_logged dst src owner blobs _ sha o err hmem2
      simp only [deleteFailedRecord] at this
      simp [this]
    · intro r hmem hlev
      rw [hshape] at hmem
      simp only [List.cons_append, List.mem_cons, List.mem_append, List.mem_map,
        List.mem_singleton, Event.log.injEq, reduceCtorEq, false_or, and_false,
        exists_false, List.not_mem_nil, or_false] at hmem
      rcases hmem with (rfl | hmem) | rfl
      · simp [startRecord] at hlev
      · obtain ⟨sha, err, hr | hr⟩ := migrateLoop_error_records dst src owner blobs _ r hmem hlev
        · exact ⟨sha, err, by rw [hr]; rfl⟩
        · exact ⟨sha, err, by rw [hr]; rfl⟩
      · simp [completedRecord] at hlev
    · intro b hb
      rw [hshape]
      have := migrateLoop_moving_logged dst src owner blobs
        { outbox := (src.List s0 owner).2, blossom := d0, migrated := [] } b hb
      simp only [movingRecord] at this
      simp [this]
    · intro pre post b o err heq
      rw [hshape] at heq
      obtain ⟨pre2, post2, hmid, _, hpost⟩ := split_in_middle _ _ pre post _ _
        (hfk b o (some err)) (by simp) heq
      obtain ⟨post3, hp3⟩ := migrateLoop_keep_failure_next dst src owner blobs _ b o err
        pre2 post2 hmid
      exact ⟨post3 ++ [Event.log (completedRecord (migrateLoop dst src owner blobs
        { outbox := (src.List s0 owner).2, blossom := d0, migrated := [] }).2.migrated.len)],
        by rw [hpost, hp3]; rfl⟩
    · intro pre post sha o err heq
      rw [hshape] at heq
      obtain ⟨pre2, post2, hmid, _, hpost⟩ := split_in_middle _ _ pre post _ _
        (hfd sha o (some err)) (by simp) heq
      obtain ⟨post3, hp3⟩ := migrateLoop_delete_failure_next dst src owner blobs _ sha o err
        pre2 post2 hmid
      exact ⟨post3 ++ [Event.log (completedRecord (migrateLoop dst src owner blobs
        { outbox := (src.List s0 owner).2, blossom := d0, migrated := [] }).2.migrated.len)],
        by rw [hpost, hp3]; rfl⟩
    · intro pre post k o e heq
      rw [hshape] at heq
      obtain ⟨pre2, post2, hmid, hpre, _⟩ := split_in_middle _ _ pre post _ _
        (hfk k o e) (by simp) heq
      obtain ⟨pre3, b, hb, hk, hp3⟩ := migrateLoop_moving_before_keep dst src owner blobs _
        k o e pre2 post2 hmid
      exact ⟨(Event.list owner none :: blobs.map Event.recv ++
          [Event.log (startRecord blobs.length)]) ++ pre3, b, hb, hk,
        by rw [hpre, hp3]; simp [movingRecord]⟩
    · intro b hb
      obtain ⟨pre, post, e, hr⟩ := migrateLoop_keep_after_moving dst src owner blobs
        { outbox := (src.List s0 owner).2, blossom := d0, migrated := [] } b hb
      refine ⟨(Event.list owner none :: blobs.map Event.recv ++
          [Event.log (startRecord blobs.length)]) ++ pre,
        post ++ [Event.log (completedRecord (migrateLoop dst src owner blobs
          { outbox := (src.List s0 owner).2, blossom := d0, migrated := [] }).2.migrated.len)],
        e, ?_⟩
      rw [hshape, hr]
      simp [movingRecord]
    · intro r hmem hattr
      rw [hshape] at hmem
      simp only [List.cons_append, List.mem_cons, List.mem_append, List.mem_map,
        List.mem_singleton, Event.log.injEq, reduceCtorEq, false_or, and_false,
        exists_false, List.not_mem_nil, or_false] at hmem
      rcases hmem with (rfl | hmem) | rfl
      · obtain ⟨v, hv⟩ := hattr
        simp [startRecord] at hv
      · obtain ⟨b, hb, hr⟩ := migrateLoop_type_size_only_moving dst src owner blobs _ r
          hmem hattr
        exact ⟨b, hb, by rw [hr]; rfl⟩
      · obtain ⟨v, hv⟩ := hattr
        simp [completedRecord] at hv

/-- Witness for C8 as amended, on the partial-failure scenario: the failed `Keep` of digest
`bb` has its error record in the trace, and the record of `bb` that carries media type and
size is the debug one, with the media type as enumerated. -/
theorem failure_logging_witness :
    Event.log ⟨Level.Error, "🚫 Failed to store blob in Blossom DB",
        [("sha256", LogValue.str "bb"), ("error", LogValue.err "StoreWriteError")]⟩
      ∈ partialFailureRun.trace ∧
    Event.log ⟨Level.Debug, "Moving BlobDescriptor",
        [("sha256", LogValue.str "bb"), ("type", LogValue.str ""),
         ("size", LogValue.int 1024)]⟩
      ∈ partialFailureRun.trace :=
  have w := failure_logging memIndex memIndex "pk" outbox3 blossomFailSecond
    [mkBlob "aa" "image/png" 10, mkBlob "bb" "" 1024, mkBlob "cc" "text/plain" 7] rfl
  ⟨w.1 (mkBlob "bb" "application/octet-stream" 1024) "pk" "StoreWriteError" (by decide),
   w.2.2.2.1 (mkBlob "bb" "" 1024) (by decide)⟩

/-! ## The in-memory index meets the contracts -/

theorem MemIndex.has_iff (s : MemIndex) (owner sha : String) :
    s.has owner sha = true ↔ ∃ b, (owner, b) ∈ s.entries ∧ b.SHA256 = sha := by
  unfold MemIndex.has
  rw [List.any_eq_true]
  constructor
  · rintro ⟨⟨o, b⟩, hmem, hp⟩
    simp only [Bool.and_eq_true, decide_eq_true_eq] at hp
    obtain ⟨rfl, rfl⟩ := hp
    exact ⟨b, hmem, rfl⟩
  · rintro ⟨b, hmem, rfl⟩
    exact ⟨(owner, b), hmem, by simp⟩

theorem memIndex_sourceContract :
    SourceContract memIndex (fun s o x => s.has o x = true) where
  list_sound := by
    intro s o bs h b hb
    rcases hf : s.faults with _ | ⟨_ | _, fs⟩ <;>
      simp only [memIndex, MemIndex.List, hf, Prod.mk.injEq, Except.ok.injEq,
        reduceCtorEq] at h ⊢ <;>
      · subst h
        rw [MemIndex.has_iff]
        simp only [List.mem_map, List.mem_filter, decide_eq_true_eq] at hb
        obtain ⟨⟨o2, b2⟩, ⟨hm, rfl⟩, rfl⟩ := hb
        exact ⟨b2, hm, rfl⟩
  list_complete := by
    intro s o bs h x hx
    rcases hf : s.faults with _ | ⟨_ | _, fs⟩ <;>
      simp only [memIndex, MemIndex.List, hf, Prod.mk.injEq, Except.ok.injEq,
        reduceCtorEq] at h hx ⊢ <;>
      · subst h
        rw [MemIndex.has_iff] at hx
        obtain ⟨b, hm, rfl⟩ := hx
        exact ⟨b, by simp only [List.mem_map, List.mem_filter, decide_eq_true_eq];
                     exact ⟨(o, b), ⟨hm, rfl⟩, rfl⟩, rfl⟩
  list_adds_none := by
    intro s o x hx
    rcases hf : s.faults with _ | ⟨_ | _, fs⟩ <;>
      simp only [memIndex, MemIndex.List, hf] at hx <;>
      · rw [MemIndex.has_iff] at hx ⊢
        exact hx
  delete_removes := by
    intro s sha o h
    rcases hf : s.faults with _ | ⟨_ | _, fs⟩ <;>
      simp only [memIndex, MemIndex.Delete, hf, reduceCtorEq] at h ⊢ <;>
      · rw [MemIndex.has_iff]
        rintro ⟨b, hm, rfl⟩
        simp at hm
  delete_adds_none := by
    intro s sha o x hx
    rcases hf : s.faults with _ | ⟨_ | _, fs⟩ <;>
      simp only [memIndex, MemIndex.Delete, hf] at hx <;>
      · rw [MemIndex.has_iff] at hx ⊢
        obtain ⟨b, hm, rfl⟩ := hx
        first
        | exact ⟨b, hm, rfl⟩
        | exact ⟨b, (List.mem_filter.1 hm).1, rfl⟩
  delete_frame := by
    intro s sha o x hne hx
    rcases hf : s.faults with _ | ⟨_ | _, fs⟩ <;>
      simp only [memIndex, MemIndex.Delete, hf] <;>
      · rw [MemIndex.has_iff] at hx ⊢
        obtain ⟨b, hm, rfl⟩ := hx
        first
        | exact ⟨b, hm, rfl⟩
        | exact ⟨b, List.mem_filter.2 ⟨hm, by simp [hne]⟩, rfl⟩

theorem memIndex_destContract :
    DestContract memIndex (fun s o x => s.has o x = true) where
  keep_present := by
    intro s b o h
    rcases hf : s.faults with _ | ⟨_ | _, fs⟩ <;>
      simp only [memIndex, MemIndex.Keep, hf, reduceCtorEq] at h ⊢ <;>
      · by_cases hh : s.has o b.SHA256 = true
        · simp only [hh, if_true]
          rw [MemIndex.has_iff] at hh ⊢
          exact hh
        · simp only [hh, if_false]
          rw [MemIndex.has_iff]
          exact ⟨b, by simp, rfl⟩
  keep_frame := by
    intro s b o x hx
    rcases hf : s.faults with _ | ⟨_ | _, fs⟩ <;>
      simp only [memIndex, MemIndex.Keep, hf] <;>
      first
      | (rw [MemIndex.has_iff] at hx ⊢; exact hx)
      | (by_cases hh : s.has o b.SHA256 = true
         · simp only [hh, if_true]
           rw [MemIndex.has_iff] at hx ⊢
           exact hx
         · simp only [hh, if_false]
           rw [MemIndex.has_iff] at hx ⊢
           obtain ⟨b2, hm, rfl⟩ := hx
           exact ⟨b2, by simp [hm], rfl⟩)

/-! ## The stores after the loop -/

/-- The destination after the loop is the initial one with the `Keep` calls of the trace
applied in order: nothing else touches it. -/
theorem migrateLoop_blossom {σ τ : Type} (dst : BlobIndex τ) (src : BlobIndex σ)
    (owner : String) (blobs : List BlobDescriptor) (st : LoopState σ τ) :
    (migrateLoop dst src owner blobs st).2.blossom =
      (keepArgs (migrateLoop dst src owner blobs st).1).foldl
        (fun s k => (dst.Keep s k owner).2) st.blossom := by
  induction blobs generalizing st with
  | nil => simp [migrateLoop_nil, keepArgs]
  | cons blob rest ih =>
    rw [migrateLoop_cons, keepArgs_append, List.foldl_append, ih, loopBody_blossom]
    rcases loopBody_cases dst src owner st blob with ⟨e, _, h⟩ | ⟨e, _, _, h⟩ | ⟨_, _, h⟩ <;>
      simp [h, keepArgs]

/-- A digest present in the destination before the loop is present after it. -/
theorem migrateLoop_dest_frame {σ τ : Type} (dst : BlobIndex τ) (src : BlobIndex σ)
    (present : τ → String → String → Prop) (hc : DestContract dst present)
    (owner : String) (blobs : List BlobDescriptor) (st : LoopState σ τ) (x : String)
    (hx : present st.blossom owner x) :
    present (migrateLoop dst src owner blobs st).2.blossom owner x := by
  induction blobs generalizing st with
  | nil => simpa [migrateLoop_nil] using hx
  | cons blob rest ih =>
    rw [migrateLoop_cons]
    apply ih
    rw [loopBody_blossom]
    exact hc.keep_frame _ _ _ _ hx

/-- A digest whose `Keep` returned `nil` during the loop is present in the destination
after the loop. -/
theorem migrateLoop_kept_present {σ τ : Type} (dst : BlobIndex τ) (src : BlobIndex σ)
    (present : τ → String → String → Prop) (hc : DestContract dst present)
    (owner : String) (blobs : List BlobDescriptor) (st : LoopState σ τ)
    (b : BlobDescriptor) (o : String)
    (hmem : Event.keep b o none ∈ (migrateLoop dst src owner blobs st).1) :
    present (migrateLoop dst src owner blobs st).2.blossom owner b.SHA256 := by
  induction blobs generalizing st with
  | nil => simp [migrateLoop_nil] at hmem
  | cons blob rest ih =>
    rw [migrateLoop_cons, List.mem_append] at hmem
    rw [migrateLoop_cons]
    rcases hmem with hmem | hmem
    · apply migrateLoop_dest_frame dst src present hc
      rw [loopBody_blossom]
      rcases loopBody_cases dst src owner st blob with ⟨e, _, h⟩ | ⟨e, hk, _, h⟩ | ⟨hk, _, h⟩
      · simp [h] at hmem
      · simp only [h, List.mem_cons, Event.keep.injEq, List.not_mem_nil, or_false,
          false_or, reduceCtorEq, and_true] at hmem
        obtain ⟨rfl, rfl⟩ := hmem
        exact hc.keep_present _ _ _ hk
      · simp only [h, List.mem_cons, Event.keep.injEq, List.not_mem_nil, or_false,
          false_or, reduceCtorEq, and_true] at hmem
        obtain ⟨rfl, rfl⟩ := hmem
        exact hc.keep_present _ _ _ hk
    · exact ih _ hmem

/-- A digest none of whose `Keep` calls returned `nil` is never deleted by the loop and,
if present in the source before the loop, is present after it. -/
theorem migrateLoop_source_frame {σ τ : Type} (dst : BlobIndex τ) (src : BlobIndex σ)
    (present : σ → String → String → Prop)
    (hframe : ∀ s sha o x, x ≠ sha → present s o x → present (src.Delete s sha o).2 o x)
    (owner : String) (blobs : List BlobDescriptor) (st : LoopState σ τ) (x : String)
    (hfail : ∀ k o e, Event.keep k o e ∈ (migrateLoop dst src owner blobs st).1 →
      k.SHA256 = x → e ≠ none)
    (hx : present st.outbox owner x) :
    (∀ o e, Event.delete x o e ∉ (migrateLoop dst src owner blobs st).1) ∧
    present (migrateLoop dst src owner blobs st).2.outbox owner x := by
  induction blobs generalizing st with
  | nil => exact ⟨by simp [migrateLoop_nil], by simpa [migrateLoop_nil] using hx⟩
  | cons blob rest ih =>
    rw [migrateLoop_cons] at hfail ⊢
    have hfail1 : ∀ k o e, Event.keep k o e ∈ (loopBody dst src owner st blob).1 →
        k.SHA256 = x → e ≠ none :=
      fun k o e hm => hfail k o e (List.mem_append_left _ hm)
    have hfail2 : ∀ k o e, Event.keep k o e ∈
        (migrateLoop dst src owner rest (loopBody dst src owner st blob).2).1 →
        k.SHA256 = x → e ≠ none :=
      fun k o e hm => hfail k o e (List.mem_append_right _ hm)
    rcases loopBody_cases dst src owner st blob with ⟨e, _, h⟩ | ⟨e, _, _, h⟩ | ⟨_, _, h⟩
    · obtain ⟨ih1, ih2⟩ := ih (loopBody dst src owner st blob).2 hfail2 (by rw [h]; exact hx)
      refine ⟨fun o e hm => ?_, ih2⟩
      rcases List.mem_append.1 hm with hm | hm
      · simp [h] at hm
      · exact ih1 o e hm
    · have hne : x ≠ blob.SHA256 := by
        intro heq
        exact hfail1 (normalizeType blob) owner none (by simp [h])
          (by rw [normalizeType_SHA256, heq]) rfl
      obtain ⟨ih1, ih2⟩ := ih (loopBody dst src owner st blob).2 hfail2
        (by rw [h]; exact hframe _ _ _ _ hne hx)
      refine ⟨fun o e hm => ?_, ih2⟩
      rcases List.mem_append.1 hm with hm | hm
      · simp only [h, List.mem_cons, Event.delete.injEq, List.not_mem_nil, or_false,
          false_or, reduceCtorEq] at hm
        exact hne hm.1
      · exact ih1 o e hm
    · have hne : x ≠ blob.SHA256 := by
        intro heq
        exact hfail1 (normalizeType blob) owner none (by simp [h])
          (by rw [normalizeType_SHA256, heq]) rfl
      obtain ⟨ih1, ih2⟩ := ih (loopBody dst src owner st blob).2 hfail2
        (by rw [h]; exact hframe _ _ _ _ hne hx)
      refine ⟨fun o e hm => ?_, ih2⟩
      rcases List.mem_append.1 hm with hm | hm
      · simp only [h, List.mem_cons, Event.delete.injEq, List.not_mem_nil, or_false,
          false_or, reduceCtorEq] at hm
        exact hne hm.1
      · exact ih1 o e hm

/-- When every `Keep` and every `Delete` of the loop returned `nil`, a digest present in
the source after the loop was present before it and is not an enumerated one. -/
theorem migrateLoop_source_emptied {σ τ : Type} (dst : BlobIndex τ) (src : BlobIndex σ)
    (present : σ → String → String → Prop) (hc : SourceContract src present)
    (owner : String) (blobs : List BlobDescriptor) (st : LoopState σ τ) (x : String)
    (hk : ∀ k o e, Event.keep k o e ∈ (migrateLoop dst src owner blobs st).1 → e = none)
    (hd : ∀ sha o e, Event.delete sha o e ∈ (migrateLoop dst src owner blobs st).1 → e = none)
    (hx : present (migrateLoop dst src owner blobs st).2.outbox owner x) :
    present st.outbox owner x ∧ ∀ b ∈ blobs, b.SHA256 ≠ x := by
  induction blobs generalizing st with
  | nil => exact ⟨by simpa [migrateLoop_nil] using hx, by simp⟩
  | cons blob rest ih =>
    rw [migrateLoop_cons] at hk hd hx
    obtain ⟨ih1, ih2⟩ := ih (loopBody dst src owner st blob).2
      (fun k o e hm => hk k o e (List.mem_append_right _ hm))
      (fun sha o e hm => hd sha o e (List.mem_append_right _ hm)) hx
    rcases loopBody_cases dst src owner st blob with ⟨e, _, h⟩ | ⟨e, _, _, h⟩ | ⟨_, hdel, h⟩
    · exact absurd (hk (normalizeType blob) owner (some e)
        (List.mem_append_left _ (by simp [h]))) (by simp)
    · exact absurd (hd blob.SHA256 owner (some e)
        (List.mem_append_left _ (by simp [h]))) (by simp)
    · simp only [h] at ih1
      refine ⟨hc.delete_adds_none _ _ _ _ ih1, ?_⟩
      intro b hb
      rcases List.mem_cons.1 hb with rfl | hb2
      · intro heq
        subst heq
        exact hc.delete_removes _ _ _ hdel ih1
      · exact ih2 b hb2

/-! ## Reading outcomes off a trace -/

theorem mem_keptDigests_of_keep (t : List Event) (k : BlobDescriptor) (o : String)
    (h : Event.keep k o none ∈ t) : k.SHA256 ∈ keptDigests t := by
  induction t with
  | nil => simp at h
  | cons ev t ih =>
    rcases List.mem_cons.1 h with rfl | h2
    · simp [keptDigests]
    · have := ih h2
      rcases ev with _ | _ | ⟨_, _, _ | _⟩ | _ | _ <;> simp [keptDigests, this]

theorem keep_ok_of_failedKeeps_zero (t : List Event) (h0 : failedKeeps t = 0)
    (k : BlobDescriptor) (o : String) (e : Option GoError) (h : Event.keep k o e ∈ t) :
    e = none := by
  induction t with
  | nil => simp at h
  | cons ev t ih =>
    rcases ev with _ | _ | ⟨_, _, _ | _⟩ | _ | _ <;>
      simp only [failedKeeps, List.mem_cons, reduceCtorEq, false_or, Event.keep.injEq,
        Nat.add_one_ne_zero] at h0 h
    · exact ih h0 h
    · exact ih h0 h
    · rcases h with ⟨_, _, rfl⟩ | h
      · rfl
      · exact ih h0 h
    · exact ih h0 h
    · exact ih h0 h

theorem delete_ok_of_failedDeletes_zero (t : List Event) (h0 : failedDeletes t = 0)
    (sha o : String) (e : Option GoError) (h : Event.delete sha o e ∈ t) :
    e = none := by
  induction t with
  | nil => simp at h
  | cons ev t ih =>
    rcases ev with _ | _ | _ | ⟨_, _, _ | _⟩ | _ <;>
      simp only [failedDeletes, List.mem_cons, reduceCtorEq, false_or, Event.delete.injEq,
        Nat.add_one_ne_zero] at h0 h
    · exact ih h0 h
    · exact ih h0 h
    · exact ih h0 h
    · rcases h with ⟨_, _, rfl⟩ | h
      · rfl
      · exact ih h0 h
    · exact ih h0 h

/-- C2 (no-loss): if the destination index keeps what it accepted (a `Keep` that returns
`nil` leaves its digest present, and no `Keep` removes a digest), then every digest whose
`Keep` returned `nil` during the run is present in the destination when the run ends,
whatever the source index does and whatever its `Delete` returned; and the destination's
final state is its initial state with the `Keep` calls of the run applied in order, so no
other operation, in particular no `Delete`, is ever issued against it. -/
theorem no_loss {σ τ : Type} (dst : BlobIndex τ) (src : BlobIndex σ)
    (present : τ → String → String → Prop) (hc : DestContract dst present)
    (owner : String) (s0 : σ) (d0 : τ) :
    (∀ b o, Event.keep b o none ∈ (migrateBlossomMetadata dst src owner s0 d0).trace →
      present (migrateBlossomMetadata dst src owner s0 d0).blossom owner b.SHA256) ∧
    (migrateBlossomMetadata dst src owner s0 d0).blossom =
      (keepArgs (migrateBlossomMetadata dst src owner s0 d0).trace).foldl
        (fun s k => (dst.Keep s k owner).2) d0 := by
  rcases h : (src.List s0 owner).1 with err | blobs
  · rw [run_list_error dst src owner s0 d0 err h]
    simp [keepArgs]
  · by_cases hne : blobs = []
    · subst hne
      rw [run_list_empty dst src owner s0 d0 h]
      simp [keepArgs]
    · rw [run_list_ok dst src owner s0 d0 blobs h hne]
      refine ⟨?_, ?_⟩
      · intro b o hmem
        have hmem2 : Event.keep b o none ∈ (migrateLoop dst src owner blobs
            { outbox := (src.List s0 owner).2, blossom := d0, migrated := [] }).1 := by
          simpa using hmem
        exact migrateLoop_kept_present dst src present hc owner blobs _ b o hmem2
      · have hka : keepArgs (Event.list owner none :: blobs.map Event.recv ++
            [Event.log (startRecord blobs.length)] ++
            (migrateLoop dst src owner blobs
              { outbox := (src.List s0 owner).2, blossom := d0, migrated := [] }).1 ++
            [Event.log (completedRecord (migrateLoop dst src owner blobs
              { outbox := (src.List s0 owner).2, blossom := d0,
                migrated := [] }).2.migrated.len)]) =
            keepArgs (migrateLoop dst src owner blobs
              { outbox := (src.List s0 owner).2, blossom := d0, migrated := [] }).1 := by
          simp [keepArgs_append, keepArgs, keepArgs_map_recv]
        rw [hka]
        exact migrateLoop_blossom dst src owner blobs _

/-- Witness for C2: the `Keep` of digest `aa` succeeds, the `Delete` that follows fails,
and `aa` is present in the destination after the run. -/
theorem no_loss_witness :
    Event.delete "aa" "pk" (some "StoreDeleteError") ∈ deleteFailureRun.trace ∧
    deleteFailureRun.blossom.has "pk" "aa" = true :=
  ⟨by decide,
   (no_loss memIndex memIndex (fun s o x => s.has o x = true) memIndex_destContract "pk"
      outboxDeleteFails { entries := [], faults := [] }).1
      (mkBlob "aa" "image/png" 10) "pk" (by decide)⟩

/-- C1 (no-premature-delete): suppose the source index enumerates only digests it holds
and a `Delete` never removes a digest other than its own.  If the enumeration succeeds,
`b` is an enumerated descriptor, and no `Keep` of the run on `b`'s digest returned `nil`,
then the run issues no `Delete` of that digest and the digest is present in the source
when the run ends. -/
theorem no_premature_delete {σ τ : Type} (dst : BlobIndex τ) (src : BlobIndex σ)
    (present : σ → String → String → Prop)
    (hsound : ∀ s o bs, (src.List s o).1 = Except.ok bs →
      ∀ b ∈ bs, present (src.List s o).2 o b.SHA256)
    (hframe : ∀ s sha o x, x ≠ sha → present s o x → present (src.Delete s sha o).2 o x)
    (owner : String) (s0 : σ) (d0 : τ) (blobs : List BlobDescriptor)
    (h : (src.List s0 owner).1 = Except.ok blobs)
    (b : BlobDescriptor) (hb : b ∈ blobs)
    (hfail : b.SHA256 ∉ keptDigests (migrateBlossomMetadata dst src owner s0 d0).trace) :
    (∀ o e, Event.delete b.SHA256 o e ∉ (migrateBlossomMetadata dst src owner s0 d0).trace) ∧
    present (migrateBlossomMetadata dst src owner s0 d0).outbox owner b.SHA256 := by
  have hne : blobs ≠ [] := List.ne_nil_of_mem hb
  rw [run_list_ok dst src owner s0 d0 blobs h hne] at hfail ⊢
  have hfail2 : ∀ k o e, Event.keep k o e ∈ (migrateLoop dst src owner blobs
      { outbox := (src.List s0 owner).2, blossom := d0, migrated := [] }).1 →
      k.SHA256 = b.SHA256 → e ≠ none := by
    rintro k o e hm hs rfl
    apply hfail
    rw [← hs]
    exact mem_keptDigests_of_keep _ k o (by simp [hm])
  obtain ⟨h1, h2⟩ := migrateLoop_source_frame dst src present hframe owner blobs
    { outbox := (src.List s0 owner).2, blossom := d0, migrated := [] } b.SHA256 hfail2
    (hsound s0 owner blobs h b hb)
  refine ⟨fun o e hm => ?_, h2⟩
  have : Event.delete b.SHA256 o e ∈ (migrateLoop dst src owner blobs
      { outbox := (src.List s0 owner).2, blossom := d0, migrated := [] }).1 := by
    simpa using hm
  exact h1 o e this

/-- Witness for C1, the partial-failure scenario: the `Keep` of digest `bb` fails, and `bb`
is still in the outbox after the run. -/
theorem no_premature_delete_witness :
    Event.keep (mkBlob "bb" "application/octet-stream" 1024) "pk" (some "StoreWriteError")
      ∈ partialFailureRun.trace ∧
    partialFailureRun.outbox.has "pk" "bb" = true :=
  ⟨by decide,
   (no_premature_delete memIndex memIndex (fun s o x => s.has o x = true)
      memIndex_sourceContract.list_sound memIndex_sourceContract.delete_frame
      "pk" outbox3 blossomFailSecond
      [mkBlob "aa" "image/png" 10, mkBlob "bb" "" 1024, mkBlob "cc" "text/plain" 7] rfl
      (mkBlob "bb" "" 1024) (by decide) (by decide)).2⟩

/-- C4 (idempotence): suppose the source index meets its contract.  If a first run
enumerates successfully and none of its `Keep` and `Delete` calls fails, then the source
holds no digest of the owner when it ends, and a second run started on the stores as the
first left them calls neither `Keep` nor `Delete`, migrates nothing, does not reach the
migration loop and leaves the destination as it found it. -/
theorem idempotence {σ τ : Type} (dst : BlobIndex τ) (src : BlobIndex σ)
    (present : σ → String → String → Prop) (hc : SourceContract src present)
    (owner : String) (s0 : σ) (d0 : τ) (blobs : List BlobDescriptor)
    (h : (src.List s0 owner).1 = Except.ok blobs)
    (hk : failedKeeps (migrateBlossomMetadata dst src owner s0 d0).trace = 0)
    (hd : failedDeletes (migrateBlossomMetadata dst src owner s0 d0).trace = 0) :
    (∀ x, ¬ present (migrateBlossomMetadata dst src owner s0 d0).outbox owner x) ∧
    keepDeleteCalls (migrateBlossomMetadata dst src owner
      (migrateBlossomMetadata dst src owner s0 d0).outbox
      (migrateBlossomMetadata dst src owner s0 d0).blossom).trace = [] ∧
    (migrateBlossomMetadata dst src owner
      (migrateBlossomMetadata dst src owner s0 d0).outbox
      (migrateBlossomMetadata dst src owner s0 d0).blossom).migrated.len = 0 ∧
    (migrateBlossomMetadata dst src owner
      (migrateBlossomMetadata dst src owner s0 d0).outbox
      (migrateBlossomMetadata dst src owner s0 d0).blossom).exit ≠ Exit.completed ∧
    (migrateBlossomMetadata dst src owner
      (migrateBlossomMetadata dst src owner s0 d0).outbox
      (migrateBlossomMetadata dst src owner s0 d0).blossom).blossom =
      (migrateBlossomMetadata dst src owner s0 d0).blossom := by
  have hempty : ∀ x, ¬ present (migrateBlossomMetadata dst src owner s0 d0).outbox owner x := by
    intro x hx
    by_cases hne : blobs = []
    · subst hne
      rw [run_list_empty dst src owner s0 d0 h] at hx
      obtain ⟨b, hb, _⟩ := hc.list_complete s0 owner [] h x hx
      simp at hb
    · have hk2 := keep_ok_of_failedKeeps_zero _ hk
      have hd2 := delete_ok_of_failedDeletes_zero _ hd
      rw [run_list_ok dst src owner s0 d0 blobs h hne] at hx hk2 hd2
      obtain ⟨h1, h2⟩ := migrateLoop_source_emptied dst src present hc owner blobs
        { outbox := (src.List s0 owner).2, blossom := d0, migrated := [] } x
        (fun k o e hm => hk2 k o e (by simp [hm]))
        (fun sha o e hm => hd2 sha o e (by simp [hm])) hx
      obtain ⟨b, hb, hbx⟩ := hc.list_complete s0 owner blobs h x h1
      exact h2 b hb hbx
  refine ⟨hempty, ?_⟩
  rcases h2 : (src.List (migrateBlossomMetadata dst src owner s0 d0).outbox owner).1 with
    err | blobs2
  · rw [run_list_error dst src owner _ _ err h2]
    simp [keepDeleteCalls, GoMap.len]
  · have hnil : blobs2 = [] := by
      cases blobs2 with
      | nil => rfl
      | cons b rest =>
        exact absurd (hc.list_adds_none _ _ _
          (hc.list_sound _ owner _ h2 b (List.mem_cons_self _ _))) (hempty _)
    subst hnil
    rw [run_list_empty dst src owner _ _ h2]
    simp [keepDeleteCalls, GoMap.len]

/-- Witness for C4: after a run in which every call succeeds, a second run on the same
stores finds nothing: its trace is the `List` call and the "nothing to migrate" record. -/
theorem idempotence_witness :
    (migrateBlossomMetadata memIndex memIndex "pk" cleanRun.outbox cleanRun.blossom).trace =
      [Event.list "pk" none,
       Event.log ⟨Level.Debug, "No blobs found to migrate",
         [("ownerPubkey", LogValue.str "pk")]⟩] ∧
    (migrateBlossomMetadata memIndex memIndex "pk" cleanRun.outbox
      cleanRun.blossom).migrated.len = 0 :=
  ⟨by decide,
   (idempotence memIndex memIndex (fun s o x => s.has o x = true) memIndex_sourceContract
      "pk" outbox3 { entries := [], faults := [] }
      [mkBlob "aa" "image/png" 10, mkBlob "bb" "" 1024, mkBlob "cc" "text/plain" 7] rfl
      (by decide) (by decide)).2.2.1⟩

end Haven
